import Mathlib

/-!
Verification of the `xl` spreadsheet reader (Rust sources `src/main.rs`,
`src/sxl.rs`, `src/ws.rs`) through a shallow embedding in Lean.

Modelling conventions:
* Rust machine integers are modelled as `Nat`, with an explicit `% 2 ^ 16`
  (resp. `% 2 ^ 32`, `% 2 ^ 64`) wherever the source arithmetic can wrap in a
  release build.
* Rust panics (`unwrap`, out-of-bounds indexing, out-of-range slicing) are
  modelled as an `Option.none` (or a dedicated `panic` constructor) result.
* Rust `String` / `&str` values are Lean `String`s; the character-level
  operations work on `String.data`.
* The XML pull parser (`quick_xml`) is external to the repository; worksheet
  parsing is embedded as a function over the list of XML events the source
  `match`es on, with attributes already extracted to `Option String`.
-/

namespace XL

/-! ### Characters, digits and decimal rendering -/

/-- Rust `char::is_ascii_alphabetic`. -/
def isAsciiAlpha (c : Char) : Bool :=
  (65 ≤ c.toNat && c.toNat ≤ 90) || (97 ≤ c.toNat && c.toNat ≤ 122)

/-- Membership in `A`-`Z` (what the character class of the regex
`[A-Z]+` of `col_letter_to_num` matches). -/
def isUpperAZ (c : Char) : Bool := 65 ≤ c.toNat && c.toNat ≤ 90

/-- Rust `char::is_ascii_digit`. -/
def isDigitChar (c : Char) : Bool := 48 ≤ c.toNat && c.toNat ≤ 57

/-- Rust's `to_uppercase`, restricted to its ASCII behaviour (`a`-`z` map to
`A`-`Z`, other ASCII characters are fixed).  Non-ASCII characters are modelled
as fixed; every concrete input in this development is ASCII, where the model
is exact. -/
def rustUpperChar (c : Char) : Char :=
  if 97 ≤ c.toNat && c.toNat ≤ 122 then Char.ofNat (c.toNat - 32) else c

/-- Rust's `to_lowercase`, ASCII part (used for the case-insensitive float
literals `inf`, `infinity`, `nan`). -/
def lowerAsciiChar (c : Char) : Char :=
  if 65 ≤ c.toNat && c.toNat ≤ 90 then Char.ofNat (c.toNat + 32) else c

/-- The ASCII digit character of `n < 10`. -/
def digitChar (n : Nat) : Char := Char.ofNat (48 + n)

/-- Decimal digits of `n`, most significant first; the extra fuel argument
makes the recursion structural (fuel `n + 1` always suffices because the
argument at least halves every step). -/
def natToStrAux : Nat → Nat → List Char
  | 0, _ => []
  | fuel + 1, n =>
    if n < 10 then [digitChar n]
    else natToStrAux fuel (n / 10) ++ [digitChar (n % 10)]

/-- Decimal rendering of a natural number (Rust `usize::to_string` and the
`Display` of the unsigned integer types). -/
def natToStr (n : Nat) : String := ⟨natToStrAux (n + 1) n⟩

/-! ### Integer parsing (Rust `str::parse`) -/

/-- Fold decimal digits onto an accumulator; `none` on the first non-digit. -/
def parseDigitsAux : Nat → List Char → Option Nat
  | acc, [] => some acc
  | acc, c :: cs =>
    if isDigitChar c then parseDigitsAux (acc * 10 + (c.toNat - 48)) cs else none

/-- Value of a non-empty all-digit string, `none` otherwise. -/
def parseDigits : List Char → Option Nat
  | [] => none
  | l => parseDigitsAux 0 l

/-- Strip one leading `+` sign (Rust's unsigned-integer `FromStr` accepts a
single optional `+`). -/
def stripPlus (l : List Char) : List Char :=
  match l with
  | c :: rest => if c = '+' then rest else l
  | [] => l

/-- Rust `str::parse::<usize>` on a 64-bit platform: optional `+`, then
decimal digits, failing on overflow past `2 ^ 64 - 1`. -/
def parseUsize (s : String) : Option Nat :=
  match parseDigits (stripPlus s.data) with
  | some v => if v < 2 ^ 64 then some v else none
  | none => none

/-- Rust `str::parse::<u32>`. -/
def parseU32 (s : String) : Option Nat :=
  match parseDigits (stripPlus s.data) with
  | some v => if v < 2 ^ 32 then some v else none
  | none => none

/-! ### Float parsing success (Rust `str::parse::<f64>`)

Only success or failure of the parse is ever inspected by the claims, so the
grammar of Rust's `f64::from_str` is embedded as a Boolean recogniser. -/

/-- Strip one leading `+` or `-` sign. -/
def stripSign (l : List Char) : List Char :=
  match l with
  | c :: rest => if c = '+' || c = '-' then rest else l
  | [] => l

/-- Split a list at the first character satisfying `p`: the part before it
and, when found, the part after it. -/
def splitFirst (p : Char → Bool) : List Char → List Char × Option (List Char)
  | [] => ([], none)
  | c :: cs =>
    if p c then ([], some cs)
    else
      let r := splitFirst p cs
      (c :: r.1, r.2)

/-- Mantissa of a decimal float literal: digits with at most one `.` and at
least one digit (`Count '.'? | Count? '.' Count`). -/
def mantissaOk (l : List Char) : Bool :=
  let r := splitFirst (fun c => c = '.') l
  match r.2 with
  | none => !l.isEmpty && l.all isDigitChar
  | some frac =>
    (r.1.all isDigitChar && frac.all isDigitChar) && !(r.1.isEmpty && frac.isEmpty)

/-- Exponent part of a float literal: optional sign, then at least one digit. -/
def exponentOk (l : List Char) : Bool :=
  let body := stripSign l
  !body.isEmpty && body.all isDigitChar

/-- Success predicate of Rust `str::parse::<f64>`: optional sign; then one of
the case-insensitive literals `inf`, `infinity`, `nan`, or a decimal mantissa
with an optional `e`/`E` exponent. -/
def parseF64ok (s : String) : Bool :=
  let l := stripSign s.data
  let low := l.map lowerAsciiChar
  if low = "inf".data || low = "infinity".data || low = "nan".data then true
  else
    let r := splitFirst (fun c => c = 'e' || c = 'E') l
    match r.2 with
    | none => mantissaOk r.1
    | some ex => mantissaOk r.1 && exponentOk ex

/-! ### The column codec (`src/sxl.rs`) -/

/-- Base-26 bijective digits of a column number, least significant first (the
`while n > 0` loop body of `col_num_to_letter`); the fuel argument makes the
recursion structural, and fuel `n` always suffices. -/
def colDigitsAux : Nat → Nat → List Nat
  | 0, _ => []
  | fuel + 1, n =>
    if n = 0 then [] else (n - 1) % 26 :: colDigitsAux fuel ((n - 1) / 26)

/-- The digit list of `col_num_to_letter`'s loop. -/
def colDigits (n : Nat) : List Nat := colDigitsAux n n

/-- The letter list a column number maps to (digits pushed least significant
first, then reversed). -/
def colLetters (n : Nat) : List Char :=
  ((colDigits n).map (fun r => Char.ofNat (65 + r))).reverse

/-- `col_num_to_letter` from `src/sxl.rs`: the column letters for column
number `n`, or `None` when `n` is outside `1..=16384`. -/
def col_num_to_letter (n : Nat) : Option String :=
  if n > 16384 || n < 1 then none else some ⟨colLetters n⟩

/-- One step of the accumulator loop of `col_letter_to_num` (`src/sxl.rs`).
The source arithmetic is `u16`: `num * 26 + ((c as u16) - ('A' as u16)) + 1`,
which wraps modulo `2 ^ 16` in a release build (a debug build panics at the
same inputs instead of wrapping; either way the claimed clean failure does
not happen). -/
def colFoldStep (acc : Nat) (c : Char) : Nat :=
  (acc * 26 + ((c.toNat % 65536 + 65536 - 65) % 65536 + 1)) % 65536

/-- `col_letter_to_num` from `src/sxl.rs`: uppercase the input, require — via
`Regex::new("[A-Z]+").is_match`, which tests for a match ANYWHERE in the
string — that some character is an uppercase letter, fold the `u16`
accumulator over ALL characters, and bounds-check the result against
`1..=16384`. -/
def col_letter_to_num (s : String) : Option Nat :=
  let u := s.data.map rustUpperChar
  if u.any isUpperAZ then
    let num := u.foldl colFoldStep 0
    if num > 16384 || num < 1 then none else some num
  else none

/-! ### Models of the missing `utils` module

`src/ws.rs` imports `crate::utils`, whose source file is not part of the
repository snapshot; the spec (§4.A) describes `num2col` and `col2num` as the
column codec, so they are modelled from the spec's words. -/

/-- Modelled from the spec: `utils::num2col` (§4.A `num_to_letter`), whose
source is missing from the snapshot.  The spec's algorithm is the one of
`col_num_to_letter` in `src/sxl.rs`. -/
def num2col (n : Nat) : Option String := col_num_to_letter n

/-- Total version of `num2col` used to phrase reference well-formedness
(`""` outside `1..=16384`). -/
def num2colD (n : Nat) : String := (num2col n).getD ""

/-- Modelled from the spec: `utils::col2num` (§4.A `letter_to_num`), whose
source is missing from the snapshot: uppercase the input; fail if any
character is outside `A`-`Z` or if the left-fold `acc * 26 + (c - 65) + 1`
lands outside `1..=16384`. -/
def col2num (s : String) : Option Nat :=
  let u := s.data.map rustUpperChar
  if u.all isUpperAZ then
    let v := u.foldl (fun acc c => acc * 26 + (c.toNat - 65) + 1) 0
    if 1 ≤ v && v ≤ 16384 then some v else none
  else none

/-- The canonical reference string of the cell at (column, row), e.g.
`canonRef 2 17 = "B17"`. -/
def canonRef (col rowNum : Nat) : String := num2colD col ++ natToStr rowNum

/-! ### The style classifier `is_date` (`src/ws.rs`) -/

/-- Does `needle` occur at the head of `hay`? -/
def startsWithSeq : List Char → List Char → Bool
  | [], _ => true
  | _ :: _, [] => false
  | a :: as, b :: bs => a = b && startsWithSeq as bs

/-- Does `needle` occur as a contiguous subsequence of `hay` (Rust
`str::contains(&str)`)? -/
def containsSeq (needle : List Char) : List Char → Bool
  | [] => needle.isEmpty
  | c :: rest => startsWithSeq needle (c :: rest) || containsSeq needle rest

/-- `is_date` from `src/ws.rs`: the date/time heuristic on a number-format
code. -/
def is_date (style : String) : Bool :=
  let is_d := style = "d"
  let like_d_not_red := style.data.contains 'd' && !containsSeq "Red".data style.data
  let is_like_m := style.data.contains 'm'
  if is_d || like_d_not_red || is_like_m then true
  else style.data.contains 'y'

/-! ### The cell data model (`src/ws.rs`) -/

/-- `chrono::NaiveDate`, reduced to its calendar fields. -/
structure NDate where
  year : Nat
  month : Nat
  day : Nat
deriving DecidableEq

/-- `chrono::NaiveTime`, reduced to whole seconds. -/
structure NTime where
  hour : Nat
  minute : Nat
  second : Nat
deriving DecidableEq

/-- `chrono::NaiveDateTime`. -/
structure NDateTime where
  date : NDate
  time : NTime
deriving DecidableEq

/-- Zero-pad a number to two decimal digits (chrono's `%m`, `%d`, `%H`, `%M`,
`%S`). -/
def pad2 (n : Nat) : String := if n < 10 then "0" ++ natToStr n else natToStr n

/-- Zero-pad a number to four decimal digits (chrono's `%Y` for years in
`0..=9999`, the only years this development ever renders). -/
def pad4 (n : Nat) : String :=
  if n < 10 then "000" ++ natToStr n
  else if n < 100 then "00" ++ natToStr n
  else if n < 1000 then "0" ++ natToStr n
  else natToStr n

/-- The `Display` of `chrono::NaiveDate`: ISO 8601 `YYYY-MM-DD`. -/
def NDate.display (d : NDate) : String :=
  pad4 d.year ++ "-" ++ pad2 d.month ++ "-" ++ pad2 d.day

/-- The `Display` of `chrono::NaiveTime` (whole seconds): `HH:MM:SS`. -/
def NTime.display (t : NTime) : String :=
  pad2 t.hour ++ ":" ++ pad2 t.minute ++ ":" ++ pad2 t.second

/-- The `Display` of `chrono::NaiveDateTime`: date, a space, time. -/
def NDateTime.display (dt : NDateTime) : String :=
  dt.date.display ++ " " ++ dt.time.display

/-- `ExcelValue` from `src/ws.rs`.  The `Number` payload is an `f64` in the
source; no claim inspects the numeric value, so it is abstracted to the text
the float was parsed from (`Cow` borrowing is likewise abstracted away in
`String`). -/
inductive ExcelValue where
  | Bool (b : Bool)
  | Date (d : NDate)
  | DateTime (dt : NDateTime)
  | Error (e : String)
  | None
  | Number (raw : String)
  | String (s : String)
  | Time (t : NTime)
deriving DecidableEq

/-- `impl fmt::Display for ExcelValue` (`src/ws.rs` lines 344-357).  The
`Number` arm prints the float with Rust's shortest round-trip formatting,
abstracted here to the stored text; no claim mentions `Number` rendering. -/
def displayExcelValue : ExcelValue → String
  | .Bool b => if b then "true" else "false"
  | .Date d => d.display
  | .DateTime dt => dt.display
  | .Error e => "#" ++ e
  | .None => ""
  | .Number raw => raw
  | .String s => "\"" ++ s ++ "\""
  | .Time t => "\"" ++ t.display ++ "\""

/-- `Cell` from `src/ws.rs`. -/
structure Cell where
  value : ExcelValue
  formula : String
  reference : String
  style : String
  cell_type : String
  raw_value : String
deriving DecidableEq

/-- `new_cell()` from `src/ws.rs`. -/
def new_cell : Cell :=
  { value := .None, formula := "", reference := "", style := "", cell_type := "",
    raw_value := "" }

/-- `Row(Vec<Cell>, usize)` from `src/ws.rs`. -/
structure Row where
  cells : List Cell
  num : Nat
deriving DecidableEq

/-- `impl fmt::Display for Cell`: a cell renders as its value. -/
def Cell.display (c : Cell) : String := displayExcelValue c.value

/-- `impl fmt::Display for Row` (`src/ws.rs` lines 427-438): write each cell,
preceded by a comma whenever it is not the first. -/
def Row.display (r : Row) : String :=
  (r.cells.foldl
    (fun (acc : String × Nat) c =>
      (acc.1 ++ (if acc.2 ≠ 0 then "," else "") ++ c.display, acc.2 + 1))
    ("", 0)).1

/-- The spec's description of row rendering (§4.I): the cells joined by
commas. -/
def joinComma : List String → String
  | [] => ""
  | [x] => x
  | x :: xs => x ++ "," ++ joinComma xs

/-- Each entry prefixed by a comma (the shape the display fold produces after
its first cell). -/
def joinCommaAll : List String → String
  | [] => ""
  | x :: xs => "," ++ x ++ joinCommaAll xs

/-- `impl Index<u16> for Row` (`src/ws.rs` lines 419-425):
`&self.0[column_index as usize]`; an out-of-bounds vector index panics, which
is modelled as `none`. -/
def Row.index (r : Row) (column_index : Nat) : Option Cell :=
  r.cells.get? column_index

/-! ### `src/sxl.rs`: the workbook constructor -/

/-- `DateSystem` from `src/sxl.rs`. -/
inductive DateSystem where
  | V1900
  | V1904
deriving DecidableEq

/-- `zip::ZipArchive`, abstracted to the names of its members. -/
structure ZipArchiveModel where
  memberNames : List String
deriving DecidableEq

/-- `Workbook` from `src/sxl.rs` (named apart from the `wb::Workbook` that
`src/ws.rs` imports from the missing `wb` module). -/
structure SxlWorkbook where
  path : String
  xls : ZipArchiveModel
  encoding : String
  date_system : DateSystem
deriving DecidableEq

/-- `Workbook::new` from `src/sxl.rs` (lines 200-213): `pathExists` models
`Path::new(&path).exists()` and `zipOpen` the outcome of
`zip::ZipArchive::new` on the opened file (`none` when the archive is
invalid). -/
def SxlWorkbook.new (pathExists : Bool) (zipOpen : Option ZipArchiveModel)
    (path : String) : Option SxlWorkbook :=
  if !pathExists then none
  else
    match zipOpen with
    | some xls =>
      some { path := path, xls := xls, encoding := "utf8", date_system := .V1900 }
    | none => none

/-! ### Reference and range parsing (`src/ws.rs`) -/

/-- Index of the first character that is not ASCII-alphabetic, scanning left
to right (`none` when every character is alphabetic, in which case the
source's `end` stays `0`). -/
def firstNonAlphaIdx : List Char → Option Nat
  | [] => none
  | c :: cs =>
    if isAsciiAlpha c then (firstNonAlphaIdx cs).map (· + 1) else some 0

/-- `coordinates` from `src/ws.rs` (lines 399-414, same body as
`Cell::coordinates`): scan the reference for the first non-alphabetic
character (`end` stays `0` when there is none), convert the alphabetic prefix
with `col2num(..).unwrap()` and parse the remainder with
`parse::<u32>().unwrap()`; both unwraps panic (`none`). -/
def coordinates (r : String) : Option (Nat × Nat) :=
  let endIdx := match firstNonAlphaIdx r.data with
    | some i => i
    | none => 0
  match col2num ⟨r.data.take endIdx⟩ with
  | none => none
  | some col =>
    match parseU32 ⟨r.data.drop endIdx⟩ with
    | none => none
    | some row => some (col, row)

/-- The part of the list after the first `:`, if any. -/
def splitAtColon : List Char → Option (List Char)
  | [] => none
  | c :: cs => if c = ':' then some cs else splitAtColon cs

/-- `used_area` from `src/ws.rs` (lines 66-91): no colon means `(0, 0)`
("unknown"); otherwise take the part after the colon, scan it for the first
non-alphabetic character (if there is none the source slices `[1..0]` and
panics), feed the alphabetic prefix to `col2num(..).unwrap()` and parse the
rest as a `u32`; the unwraps panic (`none`).  Returns `(rows, cols)`. -/
def used_area (s : String) : Option (Nat × Nat) :=
  match splitAtColon s.data with
  | none => some (0, 0)
  | some t =>
    match firstNonAlphaIdx t with
    | none => none
    | some i =>
      match col2num ⟨t.take i⟩ with
      | none => none
      | some col =>
        match parseU32 ⟨t.drop i⟩ with
        | none => none
        | some row => some (row, col)

/-! ### The cell-value dispatch of `RowIter::next` -/

/-- The match on `c.cell_type` in `RowIter::next` (`src/ws.rs` lines
559-594), computing a cell's `value` from its raw text.  `dateConv` abstracts
`utils::excel_number_to_date` composed with the `DateConversion` match (the
`utils` module is missing from the snapshot; the theorems below hold for
every such function, and it is only ever applied to text that parsed as a
float).  A `none` result models a panic: `&strings[pos]` with `pos` out of
bounds, or `parse::<f64>().unwrap()` on text that is not a float. -/
def computeValue (strings : List String) (dateConv : String → ExcelValue)
    (cell_type style raw : String) : Option ExcelValue :=
  if cell_type = "s" then
    match parseUsize raw with
    | some pos =>
      match strings.get? pos with
      | some s => some (.String s)
      | none => none
    | none => some (.String raw)
  else if cell_type = "str" || cell_type = "inlineStr" then some (.String raw)
  else if cell_type = "b" then
    if raw = "0" then some (.Bool false) else some (.Bool true)
  else if cell_type = "bl" then some .None
  else if cell_type = "e" then some (.Error raw)
  else if is_date style then
    if parseF64ok raw then some (dateConv raw) else none
  else if parseF64ok raw then some (.Number raw)
  else none

/-! ### The sheet-iteration state machine (`RowIter::next`) -/

/-- The `quick_xml` events the source `match`es on, with the attributes the
source reads already extracted (`utils::get` / `utils::attr_value` return the
attribute's text; a missing attribute is `none`).  `other` stands for every
event the source ignores with its catch-all arm, and end of file is the end
of the list (at EOF `quick_xml` keeps returning `Eof`). -/
inductive XEvent where
  | dimension (ref : Option String)
  | rowStart (r : Option String)
  | cellStart (r t s : Option String)
  | vStart
  | text (s : String)
  | vEnd
  | cellEnd
  | rowEnd
  | other
deriving DecidableEq

/-- Style lookup at a `<c>` start (`src/ws.rs` lines 543-549): take the `s`
attribute, parse it as `usize`, look it up in the style table; on any failure
keep the old value. -/
def resolveStyle (styles : List String) (sAttr : Option String) (old : String) :
    String :=
  match sAttr with
  | none => old
  | some sv =>
    match parseUsize sv with
    | none => old
    | some num =>
      match styles.get? num with
      | some st => st
      | none => old

/-- `count` synthesised empty cells for columns `startCol`,
`startCol + 1`, …, each a `new_cell()` whose reference is
`num2col(col).unwrap()` followed by the row number (the gap-filling loops of
`src/ws.rs`); the unwrap panics (`none`) outside `1..=16384`. -/
def gapCells (startCol : Nat) : Nat → Nat → Option (List Cell)
  | 0, _ => some []
  | count + 1, rowNum =>
    match num2col startCol with
    | none => none
    | some letters =>
      match gapCells (startCol + 1) count rowNum with
      | none => none
      | some rest =>
        some ({ new_cell with reference := letters ++ natToStr rowNum } :: rest)

/-- `empty_row` from `src/ws.rs` (lines 466-475). -/
def empty_row (num_cols this_row : Nat) : Option Row :=
  match gapCells 1 num_cols this_row with
  | none => none
  | some cells => some { cells := cells, num := this_row }

/-- Result of the event loop inside `RowIter::next` (`src/ws.rs` lines
517-651): a panic, `break None` at EOF, or a `break` at `</row>` yielding a
row and possibly stashing the real row in the look-ahead buffer.  The final
`num_rows`/`num_cols` and the unread events are carried out. -/
inductive LoopOut where
  | panic
  | eofNone (events : List XEvent) (num_rows num_cols : Nat)
  | yield (res : Row) (stash : Option Row) (events : List XEvent)
      (num_rows num_cols : Nat)
deriving DecidableEq

/-- The event loop of `RowIter::next` (`src/ws.rs` lines 517-651), one source
match arm per case.  Local state: the cell accumulator `row`, the `in_cell` /
`in_value` flags, the scratch cell `c` and `this_row`; `num_rows`/`num_cols`
are the iterator fields the loop updates.  In the `</row>` arm the source
casts `row.len()` to `u16` (hence the `% 2 ^ 16`) before the `max`. -/
def innerLoop (strings styles : List String) (dateConv : String → ExcelValue)
    (want_row : Nat) :
    List XEvent → Nat → Nat → List Cell → Bool → Bool → Cell → Nat → LoopOut
  | [], num_rows, num_cols, _row, _ic, _iv, _c, _tr => .eofNone [] num_rows num_cols
  | ev :: rest, num_rows, num_cols, row, in_cell, in_value, c, this_row =>
    match ev with
    | .dimension ref =>
      match ref with
      | none =>
        innerLoop strings styles dateConv want_row rest num_rows num_cols row
          in_cell in_value c this_row
      | some range =>
        if range = "A1" then
          innerLoop strings styles dateConv want_row rest num_rows num_cols row
            in_cell in_value c this_row
        else
          match used_area range with
          | none => .panic
          | some rc =>
            innerLoop strings styles dateConv want_row rest rc.1 rc.2 row
              in_cell in_value c this_row
    | .rowStart rAttr =>
      match rAttr with
      | none => .panic
      | some rs =>
        match parseUsize rs with
        | none => .panic
        | some r =>
          innerLoop strings styles dateConv want_row rest num_rows num_cols row
            in_cell in_value c r
    | .cellStart rA tA sA =>
      let c' : Cell :=
        { c with
          reference := match rA with | some v => v | none => c.reference
          cell_type := match tA with | some v => v | none => c.cell_type
          style := resolveStyle styles sA c.style }
      innerLoop strings styles dateConv want_row rest num_rows num_cols row
        true in_value c' this_row
    | .vStart =>
      innerLoop strings styles dateConv want_row rest num_rows num_cols row
        in_cell true c this_row
    | .text txt =>
      if in_value then
        match computeValue strings dateConv c.cell_type c.style txt with
        | none => .panic
        | some v =>
          innerLoop strings styles dateConv want_row rest num_rows num_cols row
            in_cell in_value { c with raw_value := txt, value := v } this_row
      else if in_cell then
        innerLoop strings styles dateConv want_row rest num_rows num_cols row
          in_cell in_value { c with formula := c.formula ++ txt } this_row
      else
        innerLoop strings styles dateConv want_row rest num_rows num_cols row
          in_cell in_value c this_row
    | .vEnd =>
      innerLoop strings styles dateConv want_row rest num_rows num_cols row
        in_cell false c this_row
    | .cellEnd =>
      match row.getLast? with
      | some prev =>
        match coordinates prev.reference with
        | none => .panic
        | some lc =>
          match coordinates c.reference with
          | none => .panic
          | some tc =>
            match gapCells (lc.1 + 1) (tc.1 - lc.1 - 1) tc.2 with
            | none => .panic
            | some gaps =>
              innerLoop strings styles dateConv want_row rest num_rows num_cols
                (row ++ gaps ++ [c]) false in_value new_cell this_row
      | none =>
        match coordinates c.reference with
        | none => .panic
        | some tc =>
          match gapCells 1 (tc.1 - 1) tc.2 with
          | none => .panic
          | some gaps =>
            innerLoop strings styles dateConv want_row rest num_rows num_cols
              (gaps ++ [c]) false in_value new_cell this_row
    | .rowEnd =>
      let nc := max num_cols (row.length % 65536)
      match gapCells (row.length + 1) (nc - row.length) this_row with
      | none => .panic
      | some pad =>
        let fullRow : Row := { cells := row ++ pad, num := this_row }
        if this_row = want_row then .yield fullRow none rest num_rows nc
        else
          match empty_row nc want_row with
          | none => .panic
          | some er => .yield er (some fullRow) rest num_rows nc
    | .other =>
      innerLoop strings styles dateConv want_row rest num_rows num_cols row
        in_cell in_value c this_row

/-- The fields of `RowIter` (`src/ws.rs` lines 446-453), with the reader
position represented by the list of unread events. -/
structure IterSt where
  events : List XEvent
  want_row : Nat
  next_row : Option Row
  num_rows : Nat
  num_cols : Nat
  done_file : Bool
deriving DecidableEq

/-- Outcome of one `RowIter::next` call: a panic, `None` (iteration over), or
`Some(row)` together with the successor state. -/
inductive NextOut where
  | panic
  | ended (st : IterSt)
  | yields (r : Row) (st : IterSt)
deriving DecidableEq

/-- `RowIter::next` (`src/ws.rs` lines 480-659): first the buffered-row
branch, then the done-file branch (`want_row < num_rows`), then the event
loop; after the loop `want_row` is incremented and, when the loop broke with
`None` while `want_row - 1 < num_rows`, the done-file flag is set and a
synthetic empty row is returned. -/
def rowIterNext (strings styles : List String) (dateConv : String → ExcelValue)
    (st : IterSt) : NextOut :=
  match st.next_row with
  | some buf =>
    if buf.num = st.want_row then
      .yields buf { st with want_row := st.want_row + 1, next_row := none }
    else
      match empty_row st.num_cols st.want_row with
      | none => .panic
      | some er => .yields er { st with want_row := st.want_row + 1 }
  | none =>
    if st.done_file ∧ st.want_row < st.num_rows then
      match empty_row st.num_cols st.want_row with
      | none => .panic
      | some er => .yields er { st with want_row := st.want_row + 1 }
    else
      match innerLoop strings styles dateConv st.want_row st.events st.num_rows
          st.num_cols [] false false new_cell 0 with
      | .panic => .panic
      | .eofNone ev nr nc =>
        if st.want_row < nr then
          match empty_row nc st.want_row with
          | none => .panic
          | some er =>
            .yields er
              { events := ev, want_row := st.want_row + 1, next_row := none,
                num_rows := nr, num_cols := nc, done_file := true }
        else
          .ended
            { events := ev, want_row := st.want_row + 1, next_row := none,
              num_rows := nr, num_cols := nc, done_file := st.done_file }
      | .yield res stash ev nr nc =>
        .yields res
          { events := ev, want_row := st.want_row + 1, next_row := stash,
            num_rows := nr, num_cols := nc, done_file := st.done_file }

/-- The initial iterator state built by `Worksheet::rows` (`src/ws.rs` lines
147-160). -/
def initIter (events : List XEvent) : IterSt :=
  { events := events, want_row := 1, next_row := none, num_rows := 0,
    num_cols := 0, done_file := false }

/-- Drive the iterator and collect the yielded rows, stopping at `None`, at a
panic, or when the fuel runs out. -/
def collectRows (strings styles : List String) (dateConv : String → ExcelValue) :
    IterSt → Nat → List Row
  | _, 0 => []
  | st, fuel + 1 =>
    match rowIterNext strings styles dateConv st with
    | .yields r st' => r :: collectRows strings styles dateConv st' fuel
    | _ => []

/-- A fixed date-conversion stand-in used for the concrete evaluations (none
of them ever reaches the date branch). -/
def exDateConv : String → ExcelValue := fun _ => ExcelValue.None

/-! ### Well-formedness of worksheet event streams

The invariants claimed for produced rows presuppose a well-formed worksheet
(the spec's data-model invariants: canonical references, strictly increasing
columns within a row, a parseable `r` attribute on each row).  `wfEvents`
states this as an executable predicate over the not-yet-consumed events,
indexed by the phase the loop is in. -/

/-- The condition under which `computeValue` does not panic; it does not
depend on the date-conversion function. -/
def valueOk (strings : List String) (cell_type _style raw : String) : Bool :=
  if cell_type = "s" then
    match parseUsize raw with
    | some pos => decide (pos < strings.length)
    | none => true
  else if cell_type = "str" || cell_type = "inlineStr" then true
  else if cell_type = "b" then true
  else if cell_type = "bl" then true
  else if cell_type = "e" then true
  else parseF64ok raw

/-- Parsing phase: at a row boundary, inside a `<row>`, inside a `<c>`, or
inside a value element; the indices carry the current row number, the column
covered so far, the current cell's column, and its declared type and resolved
style. -/
inductive WMode where
  | top
  | inRow (r lastCol : Nat)
  | inCell (r lastCol col : Nat) (ct style : String)
  | inVal (r lastCol col : Nat) (ct style : String)
deriving DecidableEq

/-- Well-formedness of the remaining events, given the phase. -/
def wfEvents (strings styles : List String) : WMode → List XEvent → Bool
  | _, [] => true
  | mode, ev :: rest =>
    match mode, ev with
    | .top, .dimension none => wfEvents strings styles .top rest
    | .top, .dimension (some range) =>
      (decide (range = "A1") || (used_area range).isSome) &&
        wfEvents strings styles .top rest
    | .top, .rowStart (some rs) =>
      (match parseUsize rs with
       | some r => decide (r < 2 ^ 32) && wfEvents strings styles (.inRow r 0) rest
       | none => false)
    | .top, .text _ => wfEvents strings styles .top rest
    | .top, .other => wfEvents strings styles .top rest
    | .inRow r lastCol, .cellStart (some ref) tA sA =>
      (match coordinates ref with
       | some cc =>
         decide (lastCol < cc.1) && decide (cc.1 ≤ 16384) && decide (cc.2 = r) &&
           decide (ref = canonRef cc.1 r) &&
           wfEvents strings styles
             (.inCell r lastCol cc.1 (tA.getD "") (resolveStyle styles sA "")) rest
       | none => false)
    | .inRow _ _, .rowEnd => wfEvents strings styles .top rest
    | .inRow r lastCol, .text _ => wfEvents strings styles (.inRow r lastCol) rest
    | .inRow r lastCol, .other => wfEvents strings styles (.inRow r lastCol) rest
    | .inCell r lastCol col ct style, .vStart =>
      wfEvents strings styles (.inVal r lastCol col ct style) rest
    | .inCell r _ col _ _, .cellEnd => wfEvents strings styles (.inRow r col) rest
    | .inCell r lastCol col ct style, .text _ =>
      wfEvents strings styles (.inCell r lastCol col ct style) rest
    | .inCell r lastCol col ct style, .other =>
      wfEvents strings styles (.inCell r lastCol col ct style) rest
    | .inVal r lastCol col ct style, .text txt =>
      valueOk strings ct style txt &&
        wfEvents strings styles (.inVal r lastCol col ct style) rest
    | .inVal r lastCol col ct style, .vEnd =>
      wfEvents strings styles (.inCell r lastCol col ct style) rest
    | .inVal r lastCol col ct style, .other =>
      wfEvents strings styles (.inVal r lastCol col ct style) rest
    | _, _ => false

/-- The cell accumulator covers columns `1..=lastCol` of row `r` with
canonical references. -/
def rowCanon (row : List Cell) (lastCol r : Nat) : Prop :=
  row.length = lastCol ∧
  row.map Cell.reference = (List.range' 1 lastCol).map (fun col => canonRef col r)

/-- The shape every produced row is claimed to have: exactly `numCols` cells
whose references are `A`, `B`, …, `num2col numCols`, each followed by the
row's number. -/
def goodRow (numCols : Nat) (r : Row) : Prop :=
  r.cells.length = numCols ∧
  r.cells.map Cell.reference = (List.range' 1 numCols).map (fun col => canonRef col r.num)

/-- Relation between the parsing phase and the loop's local state. -/
def modeInv (mode : WMode) (row : List Cell) (in_cell in_value : Bool)
    (c : Cell) (this_row : Nat) : Prop :=
  match mode with
  | .top => row = [] ∧ in_cell = false ∧ in_value = false ∧ c = new_cell
  | .inRow r lastCol =>
    rowCanon row lastCol r ∧ lastCol ≤ 16384 ∧ r < 2 ^ 32 ∧
      in_cell = false ∧ in_value = false ∧ c = new_cell ∧ this_row = r
  | .inCell r lastCol col _ct _style =>
    rowCanon row lastCol r ∧ lastCol < col ∧ col ≤ 16384 ∧ r < 2 ^ 32 ∧
      in_cell = true ∧ in_value = false ∧
      c.reference = canonRef col r ∧ c.cell_type = _ct ∧ c.style = _style ∧
      this_row = r
  | .inVal r lastCol col _ct _style =>
    rowCanon row lastCol r ∧ lastCol < col ∧ col ≤ 16384 ∧ r < 2 ^ 32 ∧
      in_cell = true ∧ in_value = true ∧
      c.reference = canonRef col r ∧ c.cell_type = _ct ∧ c.style = _style ∧
      this_row = r

/-- The look-ahead buffer, when occupied, holds a row of the claimed shape. -/
def bufGood (numCols : Nat) : Option Row → Prop
  | none => True
  | some b => goodRow numCols b

/-- Invariant of the iterator state between `next` calls: the unread events
are well-formed from a row boundary, the column count is a legal column
number, and a buffered row already has the claimed shape. -/
def iterInv (strings styles : List String) (st : IterSt) : Prop :=
  wfEvents strings styles .top st.events = true ∧
  st.num_cols ≤ 16384 ∧
  bufGood st.num_cols st.next_row

instance (n : Nat) (r : Row) : Decidable (goodRow n r) := by
  unfold goodRow; infer_instance

instance (n : Nat) (o : Option Row) : Decidable (bufGood n o) := by
  cases o with
  | none => exact isTrue trivial
  | some b => exact (inferInstance : Decidable (goodRow n b))

instance (strings styles : List String) (st : IterSt) :
    Decidable (iterInv strings styles st) := by
  unfold iterInv; infer_instance

/-- Concrete event stream for the row-shape witness: row 1 with a single cell
at `B1`. -/
def evW : List XEvent :=
  [.rowStart (some "1"), .cellStart (some "B1") none none, .cellEnd, .rowEnd]

/-- Witness iterator state. -/
def stW : IterSt := initIter evW

/-- The row the witness state yields. -/
def rW : Row :=
  { cells := [{ new_cell with reference := "A1" }, { new_cell with reference := "B1" }],
    num := 1 }

/-- The iterator state after the witness yield. -/
def stW' : IterSt :=
  { events := [], want_row := 2, next_row := none, num_rows := 0, num_cols := 2,
    done_file := false }

/-! ## Basic lemmas about characters and decimal rendering -/

theorem toNat_ofNat_chr (n : Nat) (h : n < 55296) : (Char.ofNat n).toNat = n := by
  have hv : n.isValidChar := Or.inl h
  simp only [Char.ofNat, hv, dif_pos, Char.ofNatAux, Char.toNat]
  rfl

theorem digitChar_toNat (n : Nat) (h : n < 10) : (digitChar n).toNat = 48 + n :=
  toNat_ofNat_chr _ (by omega)

theorem isDigitChar_digitChar (n : Nat) (h : n < 10) : isDigitChar (digitChar n) = true := by
  simp only [isDigitChar, digitChar_toNat n h, Bool.and_eq_true, decide_eq_true_eq]
  omega

theorem parseDigitsAux_cons (acc : Nat) (c : Char) (cs : List Char) :
    parseDigitsAux acc (c :: cs) =
      if isDigitChar c then parseDigitsAux (acc * 10 + (c.toNat - 48)) cs else none := rfl

theorem stripPlus_cons (c : Char) (rest : List Char) :
    stripPlus (c :: rest) = if c = '+' then rest else c :: rest := rfl

theorem mem_natToStrAux (fuel : Nat) :
    ∀ n c, c ∈ natToStrAux fuel n → ∃ d, d < 10 ∧ c = digitChar d := by
  induction fuel with
  | zero => intro n c hc; simp [natToStrAux] at hc
  | succ f ih =>
    intro n c hc
    unfold natToStrAux at hc
    split at hc
    · simp only [List.mem_singleton] at hc
      exact ⟨n, by omega, hc⟩
    · rcases List.mem_append.1 hc with h1 | h2
      · exact ih _ _ h1
      · simp only [List.mem_singleton] at h2
        exact ⟨n % 10, by omega, h2⟩

theorem natToStrAux_ne_nil (fuel n : Nat) (h : fuel ≠ 0) : natToStrAux fuel n ≠ [] := by
  match fuel, h with
  | f + 1, _ =>
    unfold natToStrAux
    split
    · simp
    · simp

theorem parseDigitsAux_append (l1 l2 : List Char) :
    ∀ acc, parseDigitsAux acc (l1 ++ l2) =
      match parseDigitsAux acc l1 with
      | some v => parseDigitsAux v l2
      | none => none := by
  induction l1 with
  | nil => intro acc; simp [parseDigitsAux]
  | cons c cs ih =>
    intro acc
    simp only [List.cons_append, parseDigitsAux_cons]
    by_cases hc : isDigitChar c
    · rw [if_pos hc, if_pos hc, ih]
    · rw [if_neg hc, if_neg hc]

theorem parseDigitsAux_natToStrAux (fuel : Nat) :
    ∀ n acc, n < fuel →
      ∃ k, 1 ≤ k ∧ parseDigitsAux acc (natToStrAux fuel n) = some (acc * 10 ^ k + n) := by
  induction fuel with
  | zero => intro n acc h; omega
  | succ f ih =>
    intro n acc h
    unfold natToStrAux
    by_cases h10 : n < 10
    · refine ⟨1, le_refl 1, ?_⟩
      rw [if_pos h10, parseDigitsAux_cons, if_pos (isDigitChar_digitChar n h10)]
      unfold parseDigitsAux
      rw [digitChar_toNat n h10]
      norm_num
    · rw [if_neg h10]
      have hdiv : n / 10 < f := by
        have h1 : n / 10 < n := Nat.div_lt_self (by omega) (by omega)
        omega
      obtain ⟨k, hk1, hk2⟩ := ih (n / 10) acc hdiv
      refine ⟨k + 1, by omega, ?_⟩
      rw [parseDigitsAux_append, hk2]
      have hmlt : n % 10 < 10 := Nat.mod_lt n (by omega)
      show parseDigitsAux (acc * 10 ^ k + n / 10) [digitChar (n % 10)] = _
      rw [parseDigitsAux_cons, if_pos (isDigitChar_digitChar _ hmlt)]
      unfold parseDigitsAux
      rw [digitChar_toNat _ hmlt]
      have hA10 : acc * 10 ^ (k + 1) = acc * 10 ^ k * 10 := by
        rw [pow_succ]; ring
      rw [hA10]
      have hmod := Nat.div_add_mod n 10
      generalize acc * 10 ^ k = A at *
      congr 1
      omega

theorem natToStr_data (n : Nat) : (natToStr n).data = natToStrAux (n + 1) n := rfl

theorem parseDigits_of_ne_nil (l : List Char) (h : l ≠ []) :
    parseDigits l = parseDigitsAux 0 l := by
  match l, h with
  | c :: cs, _ => rfl

theorem parseDigits_natToStr (n : Nat) : parseDigits (natToStr n).data = some n := by
  rw [natToStr_data, parseDigits_of_ne_nil _ (natToStrAux_ne_nil _ _ (by omega))]
  obtain ⟨k, -, hk⟩ := parseDigitsAux_natToStrAux (n + 1) n 0 (by omega)
  simpa using hk

theorem stripPlus_of_digits (l : List Char)
    (h : ∀ c ∈ l, ∃ d, d < 10 ∧ c = digitChar d) : stripPlus l = l := by
  match l with
  | [] => rfl
  | c :: cs =>
    rw [stripPlus_cons, if_neg]
    intro hc
    obtain ⟨d, hd, rfl⟩ := h c (by simp)
    have h1 := digitChar_toNat d hd
    rw [hc] at h1
    have h2 : ('+').toNat = 43 := by decide
    omega

theorem stripPlus_natToStr (n : Nat) : stripPlus (natToStr n).data = (natToStr n).data :=
  stripPlus_of_digits _ (by rw [natToStr_data]; exact mem_natToStrAux _ n)

theorem parseU32_natToStr (n : Nat) (h : n < 2 ^ 32) : parseU32 (natToStr n) = some n := by
  unfold parseU32
  rw [stripPlus_natToStr, parseDigits_natToStr]
  exact if_pos h

theorem parseUsize_natToStr (n : Nat) (h : n < 2 ^ 64) :
    parseUsize (natToStr n) = some n := by
  unfold parseUsize
  rw [stripPlus_natToStr, parseDigits_natToStr]
  exact if_pos h

/-! ## Lemmas about the column codec -/

theorem colDigitsAux_zero (fuel : Nat) : colDigitsAux fuel 0 = [] := by
  match fuel with
  | 0 => rfl
  | f + 1 => simp [colDigitsAux]

theorem colDigitsAux_fuel (f1 : Nat) :
    ∀ f2 n, n ≤ f1 → n ≤ f2 → colDigitsAux f1 n = colDigitsAux f2 n := by
  induction f1 with
  | zero =>
    intro f2 n h1 _
    have : n = 0 := by omega
    subst this
    rw [colDigitsAux_zero, colDigitsAux_zero]
  | succ f ih =>
    intro f2 n h1 h2
    match n with
    | 0 => rw [colDigitsAux_zero, colDigitsAux_zero]
    | m + 1 =>
      match f2, h2 with
      | g + 1, _ =>
        unfold colDigitsAux
        rw [if_neg (by omega), if_neg (by omega)]
        have hd : m / 26 ≤ f := by
          have := Nat.div_le_self m 26
          omega
        have hg : m / 26 ≤ g := by
          have := Nat.div_le_self m 26
          omega
        simp only [Nat.add_sub_cancel]
        rw [ih g (m / 26) hd hg]

theorem colDigits_succ (n : Nat) (h : 1 ≤ n) :
    colDigits n = (n - 1) % 26 :: colDigits ((n - 1) / 26) := by
  match n, h with
  | m + 1, _ =>
    show colDigitsAux (m + 1) (m + 1) = _
    unfold colDigitsAux
    rw [if_neg (by omega)]
    simp only [Nat.add_sub_cancel]
    rw [colDigitsAux_fuel m ((m) / 26) (m / 26) (by have := Nat.div_le_self m 26; omega)
      (le_refl _)]
    rfl

theorem mem_colDigits_lt (fuel : Nat) : ∀ n d, d ∈ colDigitsAux fuel n → d < 26 := by
  induction fuel with
  | zero => intro n d hd; simp [colDigitsAux] at hd
  | succ f ih =>
    intro n d hd
    unfold colDigitsAux at hd
    split at hd
    · simp at hd
    · rcases List.mem_cons.1 hd with h1 | h2
      · subst h1; exact Nat.mod_lt _ (by omega)
      · exact ih _ _ h2

theorem mem_colLetters (n : Nat) :
    ∀ c ∈ colLetters n, ∃ d, d < 26 ∧ c = Char.ofNat (65 + d) := by
  intro c hc
  unfold colLetters at hc
  rw [List.mem_reverse] at hc
  obtain ⟨d, hd, rfl⟩ := List.mem_map.1 hc
  exact ⟨d, mem_colDigits_lt n n d hd, rfl⟩

theorem colLetters_toNat (n : Nat) :
    ∀ c ∈ colLetters n, 65 ≤ c.toNat ∧ c.toNat ≤ 90 := by
  intro c hc
  obtain ⟨d, hd, rfl⟩ := mem_colLetters n c hc
  rw [toNat_ofNat_chr _ (by omega)]
  omega

theorem rustUpper_fix (c : Char) (h : c.toNat ≤ 90) : rustUpperChar c = c := by
  unfold rustUpperChar
  rw [if_neg]
  simp only [Bool.and_eq_true, decide_eq_true_eq, not_and]
  omega

theorem colLetters_ne_nil (n : Nat) (h : 1 ≤ n) : colLetters n ≠ [] := by
  unfold colLetters
  rw [colDigits_succ n h]
  simp

theorem colFoldStep_chr (acc d : Nat) (hd : d < 26) :
    colFoldStep acc (Char.ofNat (65 + d)) = (acc * 26 + d + 1) % 65536 := by
  unfold colFoldStep
  rw [toNat_ofNat_chr _ (by omega)]
  have e1 : (65 + d) % 65536 = 65 + d := Nat.mod_eq_of_lt (by omega)
  rw [e1]
  have e2 : 65 + d + 65536 - 65 = d + 65536 := by omega
  rw [e2]
  have e3 : (d + 65536) % 65536 = d := by omega
  rw [e3]
  omega

theorem colLetters_fold (n : Nat) (h1 : 1 ≤ n) :
    ∀ acc : Nat, ∃ k, 1 ≤ k ∧
      List.foldl (fun a c => a * 26 + (c.toNat - 65) + 1) acc (colLetters n) =
        acc * 26 ^ k + n ∧
      (acc * 26 ^ k + n < 65536 →
        List.foldl colFoldStep acc (colLetters n) = acc * 26 ^ k + n) := by
  induction n using Nat.strong_induction_on with
  | _ n ih =>
    intro acc
    have hsplit : colLetters n = colLetters ((n - 1) / 26) ++ [Char.ofNat (65 + (n - 1) % 26)] := by
      unfold colLetters
      rw [colDigits_succ n h1]
      simp
    have hd : (n - 1) % 26 < 26 := Nat.mod_lt _ (by omega)
    have hchr : (Char.ofNat (65 + (n - 1) % 26)).toNat = 65 + (n - 1) % 26 :=
      toNat_ofNat_chr _ (by omega)
    have hn : 26 * ((n - 1) / 26) + (n - 1) % 26 + 1 = n := by
      have := Nat.div_add_mod (n - 1) 26
      omega
    by_cases hm : (n - 1) / 26 = 0
    · have hletters : colLetters n = [Char.ofNat (65 + (n - 1) % 26)] := by
        rw [hsplit, hm]
        rfl
    -- a single digit: `n = d + 1`
      refine ⟨1, le_refl 1, ?_, ?_⟩
      · rw [hletters]
        simp only [List.foldl_cons, List.foldl_nil, hchr]
        rw [pow_one]
        omega
      · intro hb
        rw [pow_one] at hb
        rw [hletters]
        simp only [List.foldl_cons, List.foldl_nil]
        rw [colFoldStep_chr acc _ hd, pow_one]
        rw [Nat.mod_eq_of_lt (by omega)]
        omega
    · have hm1 : 1 ≤ (n - 1) / 26 := by omega
      have hmn : (n - 1) / 26 < n := by
        have := Nat.div_le_self (n - 1) 26
        omega
      obtain ⟨k, hk1, hpure, hwrap⟩ := ih ((n - 1) / 26) hmn hm1 acc
      have hA : acc * 26 ^ (k + 1) = acc * 26 ^ k * 26 := by
        rw [pow_succ]; ring
      refine ⟨k + 1, by omega, ?_, ?_⟩
      · rw [hsplit, List.foldl_append, hpure]
        simp only [List.foldl_cons, List.foldl_nil, hchr]
        rw [hA]
        generalize acc * 26 ^ k = A
        omega
      · intro hb
        rw [hA] at hb
        have hV : acc * 26 ^ k + (n - 1) / 26 < 65536 := by
          generalize hA2 : acc * 26 ^ k = A at *
          omega
        rw [hsplit, List.foldl_append, hwrap hV]
        simp only [List.foldl_cons, List.foldl_nil]
        rw [colFoldStep_chr _ _ hd, hA]
        generalize acc * 26 ^ k = A at *
        rw [Nat.mod_eq_of_lt (by omega)]
        omega

theorem col_num_to_letter_eq (n : Nat) (h1 : 1 ≤ n) (h2 : n ≤ 16384) :
    col_num_to_letter n = some ⟨colLetters n⟩ := by
  unfold col_num_to_letter
  rw [if_neg]
  simp only [Bool.or_eq_true, decide_eq_true_eq, not_or]
  omega

theorem colLetters_upper_id (n : Nat) :
    (colLetters n).map rustUpperChar = colLetters n := by
  have h : ∀ a ∈ colLetters n, rustUpperChar a = id a := fun a ha =>
    rustUpper_fix a (colLetters_toNat n a ha).2
  rw [List.map_congr_left h, List.map_id]

theorem isUpperAZ_of_bounds (c : Char) (h1 : 65 ≤ c.toNat) (h2 : c.toNat ≤ 90) :
    isUpperAZ c = true := by
  simp only [isUpperAZ, Bool.and_eq_true, decide_eq_true_eq]
  omega

theorem colLetters_any_upper (n : Nat) (h : 1 ≤ n) :
    (colLetters n).any isUpperAZ = true := by
  obtain ⟨c, hc⟩ := List.exists_mem_of_ne_nil _ (colLetters_ne_nil n h)
  exact List.any_eq_true.mpr
    ⟨c, hc, isUpperAZ_of_bounds c (colLetters_toNat n c hc).1 (colLetters_toNat n c hc).2⟩

theorem col_letter_to_num_colLetters (n : Nat) (h1 : 1 ≤ n) (h2 : n ≤ 16384) :
    col_letter_to_num ⟨colLetters n⟩ = some n := by
  show (if ((colLetters n).map rustUpperChar).any isUpperAZ then
      if ((colLetters n).map rustUpperChar).foldl colFoldStep 0 > 16384 ||
          ((colLetters n).map rustUpperChar).foldl colFoldStep 0 < 1 then none
      else some (((colLetters n).map rustUpperChar).foldl colFoldStep 0)
    else none) = some n
  rw [colLetters_upper_id, colLetters_any_upper n h1, if_pos rfl]
  obtain ⟨k, hk1, -, hwrap⟩ := colLetters_fold n h1 0
  have hfold : List.foldl colFoldStep 0 (colLetters n) = n := by
    have hb : 0 * 26 ^ k + n < 65536 := by omega
    have h3 := hwrap hb
    omega
  rw [hfold, if_neg]
  simp only [Bool.or_eq_true, decide_eq_true_eq, not_or]
  omega

theorem col2num_colLetters (n : Nat) (h1 : 1 ≤ n) (h2 : n ≤ 16384) :
    col2num ⟨colLetters n⟩ = some n := by
  show (if ((colLetters n).map rustUpperChar).all isUpperAZ then
      if 1 ≤ ((colLetters n).map rustUpperChar).foldl
            (fun acc c => acc * 26 + (c.toNat - 65) + 1) 0 &&
          ((colLetters n).map rustUpperChar).foldl
            (fun acc c => acc * 26 + (c.toNat - 65) + 1) 0 ≤ 16384 then
        some (((colLetters n).map rustUpperChar).foldl
          (fun acc c => acc * 26 + (c.toNat - 65) + 1) 0)
      else none
    else none) = some n
  rw [colLetters_upper_id]
  have hall : (colLetters n).all isUpperAZ = true :=
    List.all_eq_true.mpr fun c hc =>
      isUpperAZ_of_bounds c (colLetters_toNat n c hc).1 (colLetters_toNat n c hc).2
  rw [hall, if_pos rfl]
  obtain ⟨k, hk1, hpure, -⟩ := colLetters_fold n h1 0
  have hfold : List.foldl (fun acc c => acc * 26 + (c.toNat - 65) + 1) 0 (colLetters n) = n := by
    rw [hpure]; omega
  rw [hfold, if_pos]
  simp only [Bool.and_eq_true, decide_eq_true_eq]
  omega

theorem num2col_eq (n : Nat) (h1 : 1 ≤ n) (h2 : n ≤ 16384) :
    num2col n = some ⟨colLetters n⟩ := col_num_to_letter_eq n h1 h2

theorem num2colD_eq (n : Nat) (h1 : 1 ≤ n) (h2 : n ≤ 16384) :
    num2colD n = ⟨colLetters n⟩ := by
  unfold num2colD
  rw [num2col_eq n h1 h2]
  rfl

/-! ## Lemmas about reference parsing -/

theorem isAsciiAlpha_of_upper (c : Char) (h1 : 65 ≤ c.toNat) (h2 : c.toNat ≤ 90) :
    isAsciiAlpha c = true := by
  simp only [isAsciiAlpha, Bool.or_eq_true, Bool.and_eq_true, decide_eq_true_eq]
  omega

theorem isAsciiAlpha_digitChar (d : Nat) (h : d < 10) :
    isAsciiAlpha (digitChar d) = false := by
  simp only [isAsciiAlpha, digitChar_toNat d h, Bool.or_eq_false_iff,
    Bool.and_eq_false_iff, decide_eq_false_iff_not]
  omega

theorem firstNonAlphaIdx_append (l1 : List Char) (d : Char) (rest : List Char)
    (h1 : ∀ c ∈ l1, isAsciiAlpha c = true) (hd : isAsciiAlpha d = false) :
    firstNonAlphaIdx (l1 ++ d :: rest) = some l1.length := by
  induction l1 with
  | nil =>
    unfold firstNonAlphaIdx
    rw [List.nil_append]
    show (if isAsciiAlpha d then _ else some 0) = _
    rw [if_neg (by rw [hd]; exact Bool.false_ne_true)]
    rfl
  | cons c cs ih =>
    rw [List.cons_append]
    unfold firstNonAlphaIdx
    rw [if_pos (h1 c (by simp))]
    rw [ih (fun x hx => h1 x (by simp [hx]))]
    rfl

theorem canonRef_data (col r : Nat) (h1 : 1 ≤ col) (h2 : col ≤ 16384) :
    (canonRef col r).data = colLetters col ++ natToStrAux (r + 1) r := by
  unfold canonRef
  rw [num2colD_eq col h1 h2, String.data_append]
  rfl

theorem coordinates_canonRef (col r : Nat) (h1 : 1 ≤ col) (h2 : col ≤ 16384)
    (hr : r < 2 ^ 32) : coordinates (canonRef col r) = some (col, r) := by
  have hdata := canonRef_data col r h1 h2
  obtain ⟨d, rest, hdr⟩ :=
    List.exists_cons_of_ne_nil (natToStrAux_ne_nil (r + 1) r (by omega))
  obtain ⟨dd, hdd, hddc⟩ : ∃ dd, dd < 10 ∧ d = digitChar dd := by
    apply mem_natToStrAux (r + 1) r
    rw [hdr]; simp
  have hidx : firstNonAlphaIdx (canonRef col r).data = some (colLetters col).length := by
    rw [hdata, hdr]
    exact firstNonAlphaIdx_append _ _ _
      (fun c hc => isAsciiAlpha_of_upper c (colLetters_toNat col c hc).1
        (colLetters_toNat col c hc).2)
      (by rw [hddc]; exact isAsciiAlpha_digitChar dd hdd)
  unfold coordinates
  rw [hidx]
  show (match col2num ⟨List.take (colLetters col).length (canonRef col r).data⟩ with
    | none => none
    | some c' =>
      match parseU32 ⟨List.drop (colLetters col).length (canonRef col r).data⟩ with
      | none => none
      | some row => some (c', row)) = some (col, r)
  rw [hdata, List.take_left, List.drop_left]
  rw [col2num_colLetters col h1 h2]
  have hp : parseU32 ⟨natToStrAux (r + 1) r⟩ = some r := parseU32_natToStr r hr
  rw [hp]

/-! ## Lemmas about synthesised cells and rows -/

theorem gapCells_sound (count : Nat) :
    ∀ startCol r, 1 ≤ startCol → startCol + count ≤ 16385 →
      ∃ l, gapCells startCol count r = some l ∧ l.length = count ∧
        l.map Cell.reference = (List.range' startCol count).map (fun col => canonRef col r) := by
  induction count with
  | zero =>
    intro startCol r _ _
    exact ⟨[], rfl, rfl, by simp⟩
  | succ c ih =>
    intro startCol r hs hb
    obtain ⟨l, hl, hlen, hmap⟩ := ih (startCol + 1) r (by omega) (by omega)
    refine ⟨{ new_cell with reference := num2colD startCol ++ natToStr r } :: l, ?_, ?_, ?_⟩
    · unfold gapCells
      rw [num2col_eq startCol hs (by omega), hl]
      rw [num2colD_eq startCol hs (by omega)]
    · simp [hlen]
    · rw [List.range'_succ]
      simp only [List.map_cons, List.map_cons, hmap]
      rfl

theorem empty_row_sound (nc r : Nat) (h : nc ≤ 16384) :
    ∃ er, empty_row nc r = some er ∧ goodRow nc er ∧ er.num = r := by
  obtain ⟨l, hl, hlen, hmap⟩ := gapCells_sound nc 1 r (le_refl 1) (by omega)
  refine ⟨{ cells := l, num := r }, ?_, ⟨hlen, hmap⟩, rfl⟩
  unfold empty_row
  rw [hl]

theorem empty_row_num (nc r : Nat) (er : Row) (h : empty_row nc r = some er) :
    er.num = r := by
  unfold empty_row at h
  match hg : gapCells 1 nc r with
  | none => rw [hg] at h; exact absurd h (by simp)
  | some cells =>
    rw [hg] at h
    simp only [Option.some.injEq] at h
    rw [← h]

/-! ## C4: the column codec round-trips over the legal range -/

/-- C4: for every `n` in `1..=16384`, `col_num_to_letter n` produces a letter
string and `col_letter_to_num` maps it back to `n`: the column codec
round-trips over the full legal column range. -/
theorem c4_codec_roundtrip (n : Nat) (h1 : 1 ≤ n) (h2 : n ≤ 16384) :
    ∃ s, col_num_to_letter n = some s ∧ col_letter_to_num s = some n :=
  ⟨⟨colLetters n⟩, col_num_to_letter_eq n h1 h2, col_letter_to_num_colLetters n h1 h2⟩

/-- Witness for C4 at the top of the range, `n = 16384` (column `XFD`). -/
theorem c4_witness :
    ∃ s, col_num_to_letter 16384 = some s ∧ col_letter_to_num s = some 16384 :=
  c4_codec_roundtrip 16384 (by norm_num) (le_refl 16384)

/-! ## C5: `col_letter_to_num` does not reject non-letter characters -/

/-- C5 counterexample: `"I9"` has a character outside `A`-`Z`, so the claim
demands failure; but `Regex::is_match` only looks for a match somewhere (the
`'I'`), and the `u16` fold wraps `'9' - 'A'` around, so the source returns
`Some(227)` (a debug build panics on the same input — either way not the
claimed clean failure). -/
theorem c5_counterexample :
    col_letter_to_num "I9" = some 227 ∧ isUpperAZ (rustUpperChar '9') = false := by
  constructor
  · decide
  · decide

/-- C5 (amended): `col_letter_to_num` uppercases its input and returns `none`
exactly when NO character of the uppercased input lies in `A`-`Z` or when the
`2 ^ 16`-wrapped fold value lies outside `1..=16384`; otherwise it returns
that wrapped fold value.  Characters outside `A`-`Z` are folded with
wraparound rather than rejected.  (The ASCII hypothesis marks the range on
which the uppercase model is exact.) -/
theorem c5_letter_to_num_amended (s : String) (_hascii : ∀ c ∈ s.data, c.toNat < 128) :
    (col_letter_to_num s = none ↔
      ((∀ c ∈ s.data.map rustUpperChar, isUpperAZ c = false) ∨
        (s.data.map rustUpperChar).foldl colFoldStep 0 < 1 ∨
        16384 < (s.data.map rustUpperChar).foldl colFoldStep 0)) ∧
    (∀ v, col_letter_to_num s = some v →
      v = (s.data.map rustUpperChar).foldl colFoldStep 0 ∧ 1 ≤ v ∧ v ≤ 16384) := by
  have hdef : col_letter_to_num s =
      if (s.data.map rustUpperChar).any isUpperAZ then
        if (s.data.map rustUpperChar).foldl colFoldStep 0 > 16384 ||
            (s.data.map rustUpperChar).foldl colFoldStep 0 < 1 then none
        else some ((s.data.map rustUpperChar).foldl colFoldStep 0)
      else none := rfl
  rw [hdef]
  by_cases hany : (s.data.map rustUpperChar).any isUpperAZ
  · rw [if_pos hany]
    have hex : ¬ ∀ c ∈ s.data.map rustUpperChar, isUpperAZ c = false := by
      obtain ⟨c, hc, hc2⟩ := List.any_eq_true.1 hany
      intro hall
      rw [hall c hc] at hc2
      exact Bool.false_ne_true hc2
    by_cases hbound : (s.data.map rustUpperChar).foldl colFoldStep 0 > 16384 ||
        (s.data.map rustUpperChar).foldl colFoldStep 0 < 1
    · rw [if_pos hbound]
      simp only [Bool.or_eq_true, decide_eq_true_eq] at hbound
      constructor
      · constructor
        · intro _
          right
          omega
        · intro _
          rfl
      · intro v hv
        exact absurd hv (by simp)
    · rw [if_neg hbound]
      simp only [Bool.or_eq_true, decide_eq_true_eq, not_or, not_lt] at hbound
      constructor
      · constructor
        · intro hv
          exact absurd hv (by simp)
        · intro hcases
          rcases hcases with h | h | h
          · exact absurd h hex
          · omega
          · omega
      · intro v hv
        simp only [Option.some.injEq] at hv
        refine ⟨hv.symm, ?_, ?_⟩ <;> omega
  · rw [if_neg hany]
    have hall : ∀ c ∈ s.data.map rustUpperChar, isUpperAZ c = false := by
      intro c hc
      by_contra hne
      exact hany (List.any_eq_true.mpr ⟨c, hc, by revert hne; cases isUpperAZ c <;> simp⟩)
    constructor
    · exact ⟨fun _ => Or.inl hall, fun _ => rfl⟩
    · intro v hv
      exact absurd hv (by simp)

/-- Witness for the amended C5 at the concrete input `"I9"`. -/
theorem c5_witness :
    (227 : Nat) = (("I9" : String).data.map rustUpperChar).foldl colFoldStep 0 ∧
    1 ≤ 227 ∧ 227 ≤ 16384 :=
  (c5_letter_to_num_amended "I9" (by decide)).2 227 (by decide)

/-! ## C7: the `is_date` classifier -/

theorem startsWithSeq_iff (n : List Char) :
    ∀ h, startsWithSeq n h = true ↔ ∃ t, n ++ t = h := by
  induction n with
  | nil =>
    intro h
    constructor
    · intro _
      exact ⟨h, rfl⟩
    · intro _
      rfl
  | cons a as ih =>
    intro h
    match h with
    | [] =>
      constructor
      · intro hfalse
        exact absurd hfalse (by simp [startsWithSeq])
      · rintro ⟨t, ht⟩
        exact absurd ht (by simp)
    | b :: bs =>
      show (decide (a = b) && startsWithSeq as bs) = true ↔ _
      rw [Bool.and_eq_true, decide_eq_true_eq, ih bs]
      constructor
      · rintro ⟨rfl, t, rfl⟩
        exact ⟨t, rfl⟩
      · rintro ⟨t, ht⟩
        rw [List.cons_append] at ht
        injection ht with h1 h2
        exact ⟨h1, t, h2⟩

theorem containsSeq_iff (n : List Char) :
    ∀ h, containsSeq n h = true ↔ ∃ l r, l ++ n ++ r = h := by
  intro h
  induction h with
  | nil =>
    show n.isEmpty = true ↔ _
    rw [List.isEmpty_iff]
    constructor
    · rintro rfl
      exact ⟨[], [], rfl⟩
    · rintro ⟨l, r, hlr⟩
      rcases List.append_eq_nil.1 hlr with ⟨h1, h2⟩
      exact (List.append_eq_nil.1 h1).2
  | cons c rest ih =>
    show (startsWithSeq n (c :: rest) || containsSeq n rest) = true ↔ _
    rw [Bool.or_eq_true, startsWithSeq_iff, ih]
    constructor
    · rintro (⟨t, ht⟩ | ⟨l, r, hlr⟩)
      · exact ⟨[], t, by simpa using ht⟩
      · exact ⟨c :: l, r, by rw [← hlr]; simp⟩
    · rintro ⟨l, r, hlr⟩
      match l with
      | [] =>
        left
        exact ⟨r, by simpa using hlr⟩
      | x :: xs =>
        right
        rw [List.cons_append, List.cons_append] at hlr
        injection hlr with h1 h2
        exact ⟨xs, r, h2⟩

theorem contains_char_iff (l : List Char) (a : Char) : l.contains a = true ↔ a ∈ l :=
  List.elem_iff

/-- C7: `is_date code` returns `true` if and only if the format code equals
`"d"`, or contains `'d'` without containing the substring `"Red"`, or
contains `'m'`, or contains `'y'`. -/
theorem c7_is_date_iff (style : String) :
    is_date style = true ↔
      (style = "d" ∨
        ('d' ∈ style.data ∧ ¬ ∃ l r, l ++ "Red".data ++ r = style.data) ∨
        'm' ∈ style.data ∨ 'y' ∈ style.data) := by
  have hdef : is_date style =
      if (decide (style = "d") ||
          (style.data.contains 'd' && !containsSeq "Red".data style.data) ||
          style.data.contains 'm') then true
      else style.data.contains 'y' := rfl
  rw [hdef]
  by_cases hcond : (decide (style = "d") ||
      (style.data.contains 'd' && !containsSeq "Red".data style.data) ||
      style.data.contains 'm') = true
  · rw [if_pos hcond]
    simp only [Bool.or_eq_true, Bool.and_eq_true, Bool.not_eq_true',
      decide_eq_true_eq] at hcond
    constructor
    · intro _
      rcases hcond with (h | ⟨h1, h2⟩) | h
      · exact Or.inl h
      · refine Or.inr (Or.inl ⟨(contains_char_iff _ _).1 h1, ?_⟩)
        intro hex
        rw [((containsSeq_iff _ _).2 hex : containsSeq "Red".data style.data = true)] at h2
        exact absurd h2 (by decide)
      · exact Or.inr (Or.inr (Or.inl ((contains_char_iff _ _).1 h)))
    · intro _
      rfl
  · rw [if_neg hcond]
    simp only [Bool.or_eq_true, Bool.and_eq_true, Bool.not_eq_true',
      decide_eq_true_eq, not_or, not_and] at hcond
    obtain ⟨⟨hne, hdr⟩, hm⟩ := hcond
    rw [contains_char_iff]
    constructor
    · intro hy
      exact Or.inr (Or.inr (Or.inr hy))
    · intro hcases
      rcases hcases with h | ⟨h1, h2⟩ | h | h
      · exact absurd h hne
      · have h3 := hdr ((contains_char_iff _ _).2 h1)
        have hcs : containsSeq "Red".data style.data = true := by
          cases hcs2 : containsSeq "Red".data style.data
          · exact absurd hcs2 h3
          · rfl
        exact absurd ((containsSeq_iff _ _).1 hcs) h2
      · exact absurd ((contains_char_iff _ _).2 h) hm
      · exact h

/-! ## C8: display rendering -/

theorem str_empty_append (s : String) : "" ++ s = s := by
  apply String.ext
  rw [String.data_append]
  rfl

theorem str_append_empty (s : String) : s ++ "" = s := by
  apply String.ext
  rw [String.data_append]
  exact List.append_nil s.data

theorem joinCommaAll_cons (x : String) (xs : List String) :
    joinCommaAll (x :: xs) = "," ++ (x ++ joinCommaAll xs) := by
  show "," ++ x ++ joinCommaAll xs = _
  rw [String.append_assoc]

theorem fold_display_aux (cells : List Cell) :
    ∀ (s : String) (k : Nat), k ≠ 0 →
      (cells.foldl
        (fun (acc : String × Nat) c =>
          (acc.1 ++ (if acc.2 ≠ 0 then "," else "") ++ c.display, acc.2 + 1))
        (s, k)).1 = s ++ joinCommaAll (cells.map Cell.display) := by
  induction cells with
  | nil =>
    intro s k _
    exact (str_append_empty s).symm
  | cons c cs ih =>
    intro s k hk
    simp only [List.foldl_cons, List.map_cons]
    rw [if_pos hk]
    rw [ih _ (k + 1) (by omega)]
    rw [joinCommaAll_cons]
    simp only [String.append_assoc]

theorem joinComma_cons (x : String) (xs : List String) :
    joinComma (x :: xs) = x ++ joinCommaAll xs := by
  induction xs generalizing x with
  | nil => exact (str_append_empty x).symm
  | cons y ys ih =>
    show x ++ "," ++ joinComma (y :: ys) = _
    rw [ih y, joinCommaAll_cons]
    simp only [String.append_assoc]

theorem row_display_joinComma (r : Row) :
    Row.display r = joinComma (r.cells.map Cell.display) := by
  unfold Row.display
  match r with
  | ⟨[], num⟩ => rfl
  | ⟨c :: cs, num⟩ =>
    simp only [List.foldl_cons, List.map_cons]
    rw [joinComma_cons]
    have h0 : (("" : String) ++ (if (0 : Nat) ≠ 0 then "," else "") ++ c.display) =
        c.display := by
      rw [if_neg (by omega)]
      rw [str_append_empty, str_empty_append]
    rw [fold_display_aux cs _ 1 (by omega), h0]

/-- C8 counterexample: a `Time` value renders enclosed in double quotes, not
as bare ISO 8601 — the `Time` arm of the `Display` impl is
`write!(f, "\"{}\"", t)`, unlike the `Date` and `DateTime` arms. -/
theorem c8_counterexample :
    displayExcelValue (ExcelValue.Time ⟨12, 0, 0⟩) = "\"12:00:00\"" ∧
    displayExcelValue (ExcelValue.Time ⟨12, 0, 0⟩) ≠ "12:00:00" := by
  constructor
  · decide
  · decide

/-- C8 (amended): a Bool formats as `true`/`false`; a String formats enclosed
in double quotes; a Date formats as ISO 8601 `YYYY-MM-DD` and a DateTime as
the date, a space, and the `HH:MM:SS` time; a Time formats as its `HH:MM:SS`
rendering ENCLOSED IN DOUBLE QUOTES; Error prepends `#`; None is the empty
string; and a row formats as its cells joined by commas. -/
theorem c8_display_amended :
    (displayExcelValue (.Bool true) = "true" ∧ displayExcelValue (.Bool false) = "false") ∧
    (∀ s, displayExcelValue (.String s) = "\"" ++ s ++ "\"") ∧
    (∀ d : NDate, displayExcelValue (.Date d) =
      pad4 d.year ++ "-" ++ pad2 d.month ++ "-" ++ pad2 d.day) ∧
    (∀ dt : NDateTime, displayExcelValue (.DateTime dt) =
      displayExcelValue (.Date dt.date) ++ " " ++ NTime.display dt.time) ∧
    (∀ t : NTime, displayExcelValue (.Time t) = "\"" ++ NTime.display t ++ "\"") ∧
    (∀ e, displayExcelValue (.Error e) = "#" ++ e) ∧
    displayExcelValue .None = "" ∧
    displayExcelValue (.Date ⟨2022, 3, 13⟩) = "2022-03-13" ∧
    (∀ r : Row, Row.display r = joinComma (r.cells.map Cell.display)) := by
  refine ⟨⟨rfl, rfl⟩, fun s => rfl, fun d => rfl, fun dt => rfl, fun t => rfl,
    fun e => rfl, rfl, by decide, row_display_joinComma⟩

/-! ## C9: the workbook constructor always selects the 1900 epoch -/

/-- C9: whatever the opening conditions, every workbook `Workbook::new`
returns has `date_system == DateSystem::V1900`; the constructor writes the
variant unconditionally and never inspects the workbook part. -/
theorem c9_date_system (pathExists : Bool) (zipOpen : Option ZipArchiveModel)
    (path : String) (wb : SxlWorkbook)
    (h : SxlWorkbook.new pathExists zipOpen path = some wb) :
    wb.date_system = DateSystem.V1900 := by
  unfold SxlWorkbook.new at h
  by_cases hp : !pathExists
  · rw [if_pos hp] at h
    exact absurd h (by simp)
  · rw [if_neg hp] at h
    match zipOpen, h with
    | some xls, h =>
      simp only [Option.some.injEq] at h
      rw [← h]

/-- Witness for C9 at a concrete successful open. -/
theorem c9_witness :
    ({ path := "book.xlsx", xls := ⟨[]⟩, encoding := "utf8",
       date_system := DateSystem.V1900 } : SxlWorkbook).date_system =
      DateSystem.V1900 :=
  c9_date_system true (some ⟨[]⟩) "book.xlsx" _ rfl

/-! ## C10: indexing a row is partial -/

/-- C10: `row[i]` (the `Index<u16>` impl) returns the cell at 0-based
position `i` when `i` is within the row, and panics (modelled `none`) for
every `i` at or past the row's length — it never produces an absent-value
result. -/
theorem c10_row_index (r : Row) (i : Nat) :
    (∀ h : i < r.cells.length, Row.index r i = some (r.cells.get ⟨i, h⟩)) ∧
    (r.cells.length ≤ i → Row.index r i = none) := by
  constructor
  · intro h
    exact List.get?_eq_get h
  · intro h
    exact List.get?_eq_none.mpr h

/-- Witness for C10 on a one-cell row: index 0 hits, index 5 panics. -/
theorem c10_witness :
    Row.index { cells := [new_cell], num := 1 } 0 = some new_cell ∧
    Row.index { cells := [new_cell], num := 1 } 5 = none := by
  constructor
  · exact (c10_row_index { cells := [new_cell], num := 1 } 0).1 (by simp)
  · exact (c10_row_index { cells := [new_cell], num := 1 } 5).2 (by simp)

/-! ## C1: out-of-bounds shared-string indices -/

/-- C1 counterexample: a shared-string cell whose text `"9999"` parses as an
index out of bounds for a 3-entry table makes the source panic at
`&strings[pos]` (modelled `none`), instead of yielding `String("9999")` as
the claim states. -/
theorem c1_counterexample :
    computeValue ["alpha", "beta", "gamma"] exDateConv "s" "" "9999" = none ∧
    computeValue ["alpha", "beta", "gamma"] exDateConv "s" "" "9999" ≠
      some (ExcelValue.String "9999") := by
  constructor
  · decide
  · decide

/-- C1 (amended): for a cell of type `"s"`, text that does NOT parse as a
`usize` falls back to the literal raw text as a String; text that parses to
an in-bounds index resolves to the shared string at that index; text that
parses to an out-of-bounds index panics (aborting the iteration). -/
theorem c1_shared_string_amended (strings : List String)
    (dateConv : String → ExcelValue) (style raw : String) :
    (parseUsize raw = none →
      computeValue strings dateConv "s" style raw = some (.String raw)) ∧
    (∀ pos, parseUsize raw = some pos →
      (∀ h : pos < strings.length,
        computeValue strings dateConv "s" style raw =
          some (.String (strings.get ⟨pos, h⟩))) ∧
      (strings.length ≤ pos →
        computeValue strings dateConv "s" style raw = none)) := by
  unfold computeValue
  rw [if_pos rfl]
  constructor
  · intro h
    rw [h]
  · intro pos hpos
    rw [hpos]
    constructor
    · intro h
      show (match strings.get? pos with
        | some s => some (ExcelValue.String s)
        | none => none) = _
      rw [List.get?_eq_get h]
    · intro h
      show (match strings.get? pos with
        | some s => some (ExcelValue.String s)
        | none => none) = _
      rw [List.get?_eq_none.mpr h]

/-- Witness for the amended C1: index 0 into a one-string table resolves, and
index 7 panics. -/
theorem c1_witness :
    computeValue ["alpha"] exDateConv "s" "" "0" = some (ExcelValue.String "alpha") ∧
    computeValue ["alpha"] exDateConv "s" "" "7" = none := by
  constructor
  · exact ((c1_shared_string_amended ["alpha"] exDateConv "" "0").2 0 (by decide)).1
      (by simp)
  · exact ((c1_shared_string_amended ["alpha"] exDateConv "" "7").2 7 (by decide)).2
      (by simp)

/-! ## C2: numeric coercion failures are not recovered -/

/-- C2 counterexample: a cell of empty declared type and non-date style whose
text `"abc"` does not parse as a float makes the source panic at
`parse::<f64>().unwrap()` (modelled `none`), instead of falling back to
`String("abc")` as the claim states. -/
theorem c2_counterexample :
    computeValue [] exDateConv "" "" "abc" = none ∧
    computeValue [] exDateConv "" "" "abc" ≠ some (ExcelValue.String "abc") := by
  constructor
  · decide
  · decide

/-- C2 (amended): in the fallback branch (any type other than `"s"`, `"str"`,
`"inlineStr"`, `"b"`, `"bl"`, `"e"`), text that fails to parse as a float
panics — date-styled or not — aborting the iteration (no String fallback, so
`raw_value` reaches the consumer only when the parse succeeds); text that
parses yields `Number` (or the converted date value under a date style). -/
theorem c2_coercion_amended (strings : List String)
    (dateConv : String → ExcelValue) (ct style raw : String)
    (h1 : ct ≠ "s") (h2 : ct ≠ "str") (h3 : ct ≠ "inlineStr") (h4 : ct ≠ "b")
    (h5 : ct ≠ "bl") (h6 : ct ≠ "e") :
    (parseF64ok raw = false → computeValue strings dateConv ct style raw = none) ∧
    (is_date style = false → parseF64ok raw = true →
      computeValue strings dateConv ct style raw = some (.Number raw)) ∧
    (is_date style = true → parseF64ok raw = true →
      computeValue strings dateConv ct style raw = some (dateConv raw)) := by
  unfold computeValue
  rw [if_neg h1, if_neg (by simp [h2, h3]), if_neg h4, if_neg h5, if_neg h6]
  refine ⟨?_, ?_, ?_⟩
  · intro hp
    by_cases hd : is_date style
    · rw [if_pos hd, if_neg (by rw [hp]; exact Bool.false_ne_true)]
    · rw [if_neg hd, if_neg (by rw [hp]; exact Bool.false_ne_true)]
  · intro hd hp
    rw [if_neg (by rw [hd]; exact Bool.false_ne_true), if_pos hp]
  · intro hd hp
    rw [if_pos hd, if_pos hp]

/-- Witness for the amended C2: `"oops"` under an unrecognised type panics;
`"1.5"` under the `"0.00"` (non-date) style yields a Number. -/
theorem c2_witness :
    computeValue [] exDateConv "x" "" "oops" = none ∧
    computeValue [] exDateConv "x" "0.00" "1.5" = some (ExcelValue.Number "1.5") := by
  constructor
  · exact (c2_coercion_amended [] exDateConv "x" "" "oops" (by decide) (by decide)
      (by decide) (by decide) (by decide) (by decide)).1 (by decide)
  · exact (c2_coercion_amended [] exDateConv "x" "0.00" "1.5" (by decide) (by decide)
      (by decide) (by decide) (by decide) (by decide)).2.1 (by decide) (by decide)

/-! ## Unfolding equations for the event loop -/

section LoopEquations

variable (strings styles : List String) (dateConv : String → ExcelValue)
variable (want_row num_rows num_cols : Nat) (row : List Cell)
variable (in_cell in_value : Bool) (c : Cell) (this_row : Nat) (rest : List XEvent)

theorem innerLoop_nil :
    innerLoop strings styles dateConv want_row [] num_rows num_cols row in_cell
      in_value c this_row = .eofNone [] num_rows num_cols := rfl

theorem innerLoop_dimension (ref : Option String) :
    innerLoop strings styles dateConv want_row (.dimension ref :: rest) num_rows
      num_cols row in_cell in_value c this_row =
    (match ref with
     | none =>
       innerLoop strings styles dateConv want_row rest num_rows num_cols row
         in_cell in_value c this_row
     | some range =>
       if range = "A1" then
         innerLoop strings styles dateConv want_row rest num_rows num_cols row
           in_cell in_value c this_row
       else
         match used_area range with
         | none => .panic
         | some rc =>
           innerLoop strings styles dateConv want_row rest rc.1 rc.2 row
             in_cell in_value c this_row) := rfl

theorem innerLoop_rowStart (rAttr : Option String) :
    innerLoop strings styles dateConv want_row (.rowStart rAttr :: rest) num_rows
      num_cols row in_cell in_value c this_row =
    (match rAttr with
     | none => .panic
     | some rs =>
       match parseUsize rs with
       | none => .panic
       | some r =>
         innerLoop strings styles dateConv want_row rest num_rows num_cols row
           in_cell in_value c r) := rfl

theorem innerLoop_cellStart (rA tA sA : Option String) :
    innerLoop strings styles dateConv want_row (.cellStart rA tA sA :: rest)
      num_rows num_cols row in_cell in_value c this_row =
    innerLoop strings styles dateConv want_row rest num_rows num_cols row true
      in_value
      { c with
        reference := match rA with | some v => v | none => c.reference
        cell_type := match tA with | some v => v | none => c.cell_type
        style := resolveStyle styles sA c.style }
      this_row := rfl

theorem innerLoop_vStart :
    innerLoop strings styles dateConv want_row (.vStart :: rest) num_rows
      num_cols row in_cell in_value c this_row =
    innerLoop strings styles dateConv want_row rest num_rows num_cols row
      in_cell true c this_row := rfl

theorem innerLoop_text (txt : String) :
    innerLoop strings styles dateConv want_row (.text txt :: rest) num_rows
      num_cols row in_cell in_value c this_row =
    (if in_value then
      match computeValue strings dateConv c.cell_type c.style txt with
      | none => .panic
      | some v =>
        innerLoop strings styles dateConv want_row rest num_rows num_cols row
          in_cell in_value { c with raw_value := txt, value := v } this_row
    else if in_cell then
      innerLoop strings styles dateConv want_row rest num_rows num_cols row
        in_cell in_value { c with formula := c.formula ++ txt } this_row
    else
      innerLoop strings styles dateConv want_row rest num_rows num_cols row
        in_cell in_value c this_row) := rfl

theorem innerLoop_vEnd :
    innerLoop strings styles dateConv want_row (.vEnd :: rest) num_rows num_cols
      row in_cell in_value c this_row =
    innerLoop strings styles dateConv want_row rest num_rows num_cols row
      in_cell false c this_row := rfl

theorem innerLoop_cellEnd :
    innerLoop strings styles dateConv want_row (.cellEnd :: rest) num_rows
      num_cols row in_cell in_value c this_row =
    (match row.getLast? with
     | some prev =>
       match coordinates prev.reference with
       | none => .panic
       | some lc =>
         match coordinates c.reference with
         | none => .panic
         | some tc =>
           match gapCells (lc.1 + 1) (tc.1 - lc.1 - 1) tc.2 with
           | none => .panic
           | some gaps =>
             innerLoop strings styles dateConv want_row rest num_rows num_cols
               (row ++ gaps ++ [c]) false in_value new_cell this_row
     | none =>
       match coordinates c.reference with
       | none => .panic
       | some tc =>
         match gapCells 1 (tc.1 - 1) tc.2 with
         | none => .panic
         | some gaps =>
           innerLoop strings styles dateConv want_row rest num_rows num_cols
             (gaps ++ [c]) false in_value new_cell this_row) := rfl

theorem innerLoop_rowEnd :
    innerLoop strings styles dateConv want_row (.rowEnd :: rest) num_rows
      num_cols row in_cell in_value c this_row =
    (match gapCells (row.length + 1)
        (max num_cols (row.length % 65536) - row.length) this_row with
     | none => .panic
     | some pad =>
       if this_row = want_row then
         .yield { cells := row ++ pad, num := this_row } none rest num_rows
           (max num_cols (row.length % 65536))
       else
         match empty_row (max num_cols (row.length % 65536)) want_row with
         | none => .panic
         | some er =>
           .yield er (some { cells := row ++ pad, num := this_row }) rest
             num_rows (max num_cols (row.length % 65536))) := rfl

theorem innerLoop_other :
    innerLoop strings styles dateConv want_row (.other :: rest) num_rows
      num_cols row in_cell in_value c this_row =
    innerLoop strings styles dateConv want_row rest num_rows num_cols row
      in_cell in_value c this_row := rfl

end LoopEquations

/-! ## C3: row numbers are delivered contiguously -/

theorem innerLoop_yield_num (strings styles : List String)
    (dateConv : String → ExcelValue) (want_row : Nat) (events : List XEvent) :
    ∀ num_rows num_cols row in_cell in_value c this_row res stash ev nr nc,
      innerLoop strings styles dateConv want_row events num_rows num_cols row
        in_cell in_value c this_row = .yield res stash ev nr nc →
      res.num = want_row := by
  induction events with
  | nil =>
    intro nr0 nc0 row ic iv c tr res stash ev nr nc h
    rw [innerLoop_nil] at h
    exact absurd h (by simp)
  | cons e rest ih =>
    intro nr0 nc0 row ic iv c tr res stash ev nr nc h
    cases e with
    | dimension ref =>
      rw [innerLoop_dimension] at h
      repeat' split at h
      all_goals first
        | exact absurd h (by simp)
        | exact ih _ _ _ _ _ _ _ _ _ _ _ _ h
    | rowStart rAttr =>
      rw [innerLoop_rowStart] at h
      repeat' split at h
      all_goals first
        | exact absurd h (by simp)
        | exact ih _ _ _ _ _ _ _ _ _ _ _ _ h
    | cellStart rA tA sA =>
      rw [innerLoop_cellStart] at h
      exact ih _ _ _ _ _ _ _ _ _ _ _ _ h
    | vStart =>
      rw [innerLoop_vStart] at h
      exact ih _ _ _ _ _ _ _ _ _ _ _ _ h
    | text txt =>
      rw [innerLoop_text] at h
      repeat' split at h
      all_goals first
        | exact absurd h (by simp)
        | exact ih _ _ _ _ _ _ _ _ _ _ _ _ h
    | vEnd =>
      rw [innerLoop_vEnd] at h
      exact ih _ _ _ _ _ _ _ _ _ _ _ _ h
    | cellEnd =>
      rw [innerLoop_cellEnd] at h
      repeat' split at h
      all_goals first
        | exact ih _ _ _ _ _ _ _ _ _ _ _ _ h
        | exact absurd h (by simp)
    | rowEnd =>
      rw [innerLoop_rowEnd] at h
      split at h
      · exact absurd h (by simp)
      · split at h
        · rename_i htw
          injection h with h1 h2 h3 h4 h5
          rw [← h1]
          exact htw
        · rename_i htw
          split at h
          · exact absurd h (by simp)
          · rename_i er heq
            injection h with h1 h2 h3 h4 h5
            rw [← h1]
            exact empty_row_num _ _ _ heq
    | other =>
      rw [innerLoop_other] at h
      exact ih _ _ _ _ _ _ _ _ _ _ _ _ h

theorem rowIterNext_yield_shape (strings styles : List String)
    (dateConv : String → ExcelValue) (st : IterSt) (r : Row) (st' : IterSt)
    (h : rowIterNext strings styles dateConv st = .yields r st') :
    r.num = st.want_row ∧ st'.want_row = st.want_row + 1 := by
  unfold rowIterNext at h
  split at h
  · -- buffered row present
    rename_i buf hbuf
    split at h
    · rename_i hb
      injection h with h1 h2
      subst h1
      rw [← h2]
      exact ⟨hb, rfl⟩
    · split at h
      · exact absurd h (by simp)
      · rename_i er heq
        injection h with h1 h2
        subst h1
        rw [← h2]
        exact ⟨empty_row_num _ _ _ heq, rfl⟩
  · -- no buffered row
    split at h
    · -- done-file branch
      split at h
      · exact absurd h (by simp)
      · rename_i er heq
        injection h with h1 h2
        subst h1
        rw [← h2]
        exact ⟨empty_row_num _ _ _ heq, rfl⟩
    · -- event loop
      split at h
      · exact absurd h (by simp)
      · -- EOF
        rename_i ev nr nc hl
        split at h
        · split at h
          · exact absurd h (by simp)
          · rename_i er heq
            injection h with h1 h2
            subst h1
            rw [← h2]
            exact ⟨empty_row_num _ _ _ heq, rfl⟩
        · exact absurd h (by simp)
      · -- yielded at a `</row>`
        rename_i res stash ev nr nc hl
        injection h with h1 h2
        subst h1
        rw [← h2]
        exact ⟨innerLoop_yield_num strings styles dateConv st.want_row st.events
          _ _ _ _ _ _ _ _ _ _ _ _ hl, rfl⟩

theorem collectRows_nums (strings styles : List String)
    (dateConv : String → ExcelValue) (fuel : Nat) :
    ∀ st : IterSt,
      (collectRows strings styles dateConv st fuel).map Row.num =
        List.range' st.want_row (collectRows strings styles dateConv st fuel).length := by
  induction fuel with
  | zero => intro st; rfl
  | succ f ih =>
    intro st
    have hunfold : collectRows strings styles dateConv st (f + 1) =
        (match rowIterNext strings styles dateConv st with
         | .yields r st' => r :: collectRows strings styles dateConv st' f
         | _ => []) := rfl
    rw [hunfold]
    split
    · rename_i r st' hn
      obtain ⟨hr, hw⟩ := rowIterNext_yield_shape strings styles dateConv st r st' hn
      simp only [List.map_cons, List.length_cons, List.range'_succ]
      rw [hr, ih st', hw]
    · rfl

/-- C3 (amended): (1) for every iterator state, the delivered row numbers are
exactly `want_row, want_row + 1, …` with no duplicates and no gaps — from the
initial state, `1, 2, …, M`; (2) however, at end-of-stream the iterator only
yields a synthetic empty row while `want_row < num_rows` (both in the
done-file branch and after the final `want_row` increment), so when the tail
of the used area must be synthesised, iteration ends after `num_rows - 1`
rows — the declared count is never reached. -/
theorem c3_row_sequence_amended (strings styles : List String)
    (dateConv : String → ExcelValue) :
    (∀ (st : IterSt) (fuel : Nat),
      (collectRows strings styles dateConv st fuel).map Row.num =
        List.range' st.want_row (collectRows strings styles dateConv st fuel).length) ∧
    (∀ st : IterSt, st.events = [] → st.next_row = none → st.num_cols ≤ 16384 →
      ((∃ r st', rowIterNext strings styles dateConv st = .yields r st') ↔
        st.want_row < st.num_rows)) := by
  constructor
  · intro st fuel
    exact collectRows_nums strings styles dateConv fuel st
  · intro st hev hbuf hnc
    obtain ⟨ev, w, buf, nrows, ncols, df⟩ := st
    change ev = [] at hev
    change buf = none at hbuf
    change ncols ≤ 16384 at hnc
    subst hev
    subst hbuf
    show (∃ r st', rowIterNext strings styles dateConv
      ⟨[], w, none, nrows, ncols, df⟩ = .yields r st') ↔ w < nrows
    simp only [rowIterNext, innerLoop_nil]
    obtain ⟨er, he, -, -⟩ := empty_row_sound ncols w hnc
    constructor
    · rintro ⟨r, st', h⟩
      by_cases hd : df = true ∧ w < nrows
      · exact hd.2
      · rw [if_neg hd] at h
        by_cases hw : w < nrows
        · exact hw
        · rw [if_neg hw] at h
          exact absurd h (by simp)
    · intro hw
      by_cases hd : df = true ∧ w < nrows
      · rw [if_pos hd, he]
        exact ⟨er, _, rfl⟩
      · rw [if_neg hd, if_pos hw, he]
        exact ⟨er, _, rfl⟩

/-- C3 counterexample: a worksheet whose dimension declares two rows
(`A1:A2`) but whose stream holds no row elements delivers exactly one row
(numbered 1) and then ends: the declared count 2 is never met, the second
synthetic row the claim requires is never emitted. -/
theorem c3_counterexample :
    (collectRows [] [] exDateConv (initIter [XEvent.dimension (some "A1:A2")]) 10).map
        Row.num = [1] ∧
    used_area "A1:A2" = some (2, 1) := by
  constructor
  · decide
  · decide

/-- Witness for the amended C3: the contiguity part evaluated on the
counterexample stream, and the end-of-stream part applied at a state that
still owes a row. -/
theorem c3_witness :
    List.range' 1
        (collectRows [] [] exDateConv (initIter [XEvent.dimension (some "A1:A2")]) 10).length =
      [1] ∧
    (∃ r st', rowIterNext [] [] exDateConv
      { events := [], want_row := 1, next_row := none, num_rows := 2,
        num_cols := 1, done_file := true } = .yields r st') := by
  constructor
  · have h := (c3_row_sequence_amended [] [] exDateConv).1
      (initIter [XEvent.dimension (some "A1:A2")]) 10
    rw [show (initIter [XEvent.dimension (some "A1:A2")]).want_row = 1 from rfl] at h
    rw [← h]
    decide
  · exact ((c3_row_sequence_amended [] [] exDateConv).2
      { events := [], want_row := 1, next_row := none, num_rows := 2,
        num_cols := 1, done_file := true } rfl rfl (by norm_num)).mpr (by norm_num)

/-! ## Helper lemmas towards the row-shape invariant (C6) -/

theorem computeValue_some_of_valueOk (strings : List String)
    (dateConv : String → ExcelValue) (ct style raw : String)
    (h : valueOk strings ct style raw = true) :
    ∃ v, computeValue strings dateConv ct style raw = some v := by
  unfold valueOk at h
  unfold computeValue
  by_cases h1 : ct = "s"
  · rw [if_pos h1] at h ⊢
    split at h
    · rename_i pos heq
      rw [List.get?_eq_get (of_decide_eq_true h)]
      exact ⟨_, rfl⟩
    · exact ⟨_, rfl⟩
  · rw [if_neg h1] at h ⊢
    by_cases h2 : ct = "str" || ct = "inlineStr"
    · rw [if_pos h2] at h ⊢
      exact ⟨_, rfl⟩
    · rw [if_neg h2] at h ⊢
      by_cases h3 : ct = "b"
      · rw [if_pos h3] at h ⊢
        by_cases h4 : raw = "0"
        · rw [if_pos h4]; exact ⟨_, rfl⟩
        · rw [if_neg h4]; exact ⟨_, rfl⟩
      · rw [if_neg h3] at h ⊢
        by_cases h5 : ct = "bl"
        · rw [if_pos h5] at h ⊢
          exact ⟨_, rfl⟩
        · rw [if_neg h5] at h ⊢
          by_cases h6 : ct = "e"
          · rw [if_pos h6] at h ⊢
            exact ⟨_, rfl⟩
          · rw [if_neg h6] at h ⊢
            by_cases h7 : is_date style
            · rw [if_pos h7, if_pos h]
              exact ⟨_, rfl⟩
            · rw [if_neg h7, if_pos h]
              exact ⟨_, rfl⟩

theorem col2num_bounds (s : String) (v : Nat) (h : col2num s = some v) :
    1 ≤ v ∧ v ≤ 16384 := by
  simp only [col2num] at h
  split at h
  · split at h
    · rename_i hcond
      simp only [Bool.and_eq_true, decide_eq_true_eq] at hcond
      simp only [Option.some.injEq] at h
      omega
    · exact absurd h (by simp)
  · exact absurd h (by simp)

theorem used_area_cols_le (s : String) (rc : Nat × Nat) (h : used_area s = some rc) :
    rc.2 ≤ 16384 := by
  unfold used_area at h
  split at h
  · simp only [Option.some.injEq] at h
    rw [← h]
    norm_num
  · split at h
    · exact absurd h (by simp)
    · split at h
      · exact absurd h (by simp)
      · rename_i col hcol
        split at h
        · exact absurd h (by simp)
        · simp only [Option.some.injEq] at h
          rw [← h]
          exact (col2num_bounds _ _ hcol).2

theorem range'_map_snoc (f : Nat → String) (s n : Nat) :
    (List.range' s n).map f ++ [f (s + n)] = (List.range' s (n + 1)).map f := by
  rw [List.range'_concat, List.map_append]
  simp

theorem range'_map_append (f : Nat → String) (s m n : Nat) :
    (List.range' s m).map f ++ (List.range' (s + m) n).map f =
      (List.range' s (m + n)).map f := by
  rw [← List.map_append]
  congr 1
  have h1 : s + m = s + 1 * m := by omega
  rw [h1, List.range'_append]
  congr 1
  omega

theorem rowCanon_nil (r : Nat) : rowCanon [] 0 r := ⟨rfl, by simp⟩

theorem rowCanon_getLast (row : List Cell) (lastCol r : Nat) (h : rowCanon row lastCol r)
    (hpos : 1 ≤ lastCol) :
    ∃ prev, row.getLast? = some prev ∧ prev.reference = canonRef lastCol r := by
  obtain ⟨hlen, hmap⟩ := h
  have hne : row ≠ [] := by
    intro hnil
    rw [hnil] at hlen
    simp only [List.length_nil] at hlen
    omega
  refine ⟨row.getLast hne, List.getLast?_eq_getLast row hne, ?_⟩
  have h1 : (row.map Cell.reference).getLast? = some ((row.getLast hne).reference) := by
    rw [List.getLast?_map, List.getLast?_eq_getLast row hne]
    rfl
  rw [hmap] at h1
  have h2 : ((List.range' 1 lastCol).map (fun col => canonRef col r)).getLast? =
      some (canonRef lastCol r) := by
    rw [List.getLast?_map]
    have h3 : List.range' 1 lastCol = List.range' 1 (lastCol - 1) ++ [1 + 1 * (lastCol - 1)] := by
      rw [← List.range'_concat]
      congr 1
      omega
    rw [h3, List.getLast?_concat]
    simp only [Option.map_some']
    rw [show 1 + 1 * (lastCol - 1) = lastCol by omega]
  rw [h2] at h1
  injection h1 with h1
  exact h1.symm

theorem rowCanon_append (row : List Cell) (lastCol r : Nat) (gaps : List Cell)
    (count : Nat) (c : Cell) (hrow : rowCanon row lastCol r)
    (hglen : gaps.length = count)
    (hgmap : gaps.map Cell.reference =
      (List.range' (lastCol + 1) count).map (fun col => canonRef col r))
    (hcref : c.reference = canonRef (lastCol + count + 1) r) :
    rowCanon (row ++ gaps ++ [c]) (lastCol + count + 1) r := by
  constructor
  · simp only [List.length_append, List.length_singleton, hrow.1, hglen]
  · rw [List.map_append, List.map_append, hrow.2, hgmap]
    have h1 : (List.range' 1 lastCol).map (fun col => canonRef col r) ++
        (List.range' (lastCol + 1) count).map (fun col => canonRef col r) =
        (List.range' 1 (lastCol + count)).map (fun col => canonRef col r) := by
      have h2 : lastCol + 1 = 1 + lastCol := by omega
      rw [h2]
      exact range'_map_append _ 1 lastCol count
    rw [h1]
    have h5 := range'_map_snoc (fun col => canonRef col r) 1 (lastCol + count)
    rw [show 1 + (lastCol + count) = lastCol + count + 1 by omega] at h5
    have h3 : List.map Cell.reference [c] =
        [(fun col => canonRef col r) (lastCol + count + 1)] := by
      simp [hcref]
    rw [h3]
    exact h5

/-! ## The loop invariant -/

theorem innerLoop_inv (strings styles : List String) (dateConv : String → ExcelValue)
    (want_row : Nat) (events : List XEvent) :
    ∀ mode num_rows num_cols row in_cell in_value c this_row,
      wfEvents strings styles mode events = true →
      modeInv mode row in_cell in_value c this_row →
      num_cols ≤ 16384 →
      (match innerLoop strings styles dateConv want_row events num_rows num_cols row
          in_cell in_value c this_row with
       | .panic => False
       | .eofNone ev _ nc => ev = [] ∧ nc ≤ 16384
       | .yield res stash ev _ nc =>
         goodRow nc res ∧ (∀ b, stash = some b → goodRow nc b) ∧
           wfEvents strings styles .top ev = true ∧ nc ≤ 16384) := by
  induction events with
  | nil =>
    intro mode nr0 nc0 row ic iv c tr _ _ hnc
    rw [innerLoop_nil]
    exact ⟨rfl, hnc⟩
  | cons e rest ih =>
    intro mode nr0 nc0 row ic iv c tr hwf hmode hnc
    cases mode with
    | top =>
      obtain ⟨hrow, hic, hiv, hc⟩ := hmode
      subst hrow; subst hic; subst hiv; subst hc
      cases e with
      | dimension ref =>
        cases ref with
        | none =>
          simp only [wfEvents] at hwf
          rw [innerLoop_dimension]
          exact ih .top nr0 nc0 [] false false new_cell tr hwf ⟨rfl, rfl, rfl, rfl⟩ hnc
        | some range =>
          simp only [wfEvents, Bool.and_eq_true] at hwf
          obtain ⟨hcond, hwf⟩ := hwf
          rw [innerLoop_dimension]
          dsimp only
          by_cases hA : range = "A1"
          · rw [if_pos hA]
            exact ih .top nr0 nc0 [] false false new_cell tr hwf ⟨rfl, rfl, rfl, rfl⟩ hnc
          · rw [if_neg hA]
            have hsome : (used_area range).isSome = true := by
              rw [Bool.or_eq_true] at hcond
              rcases hcond with h | h
              · exact absurd (of_decide_eq_true h) hA
              · exact h
            obtain ⟨rc, hrc⟩ := Option.isSome_iff_exists.1 hsome
            rw [hrc]
            exact ih .top rc.1 rc.2 [] false false new_cell tr hwf ⟨rfl, rfl, rfl, rfl⟩
              (used_area_cols_le range rc hrc)
      | rowStart rAttr =>
        cases rAttr with
        | none => exact absurd hwf (by simp [wfEvents])
        | some rs =>
          simp only [wfEvents] at hwf
          split at hwf
          · rename_i r heq
            rw [Bool.and_eq_true] at hwf
            obtain ⟨hr32, hwf⟩ := hwf
            rw [innerLoop_rowStart]
            dsimp only
            rw [heq]
            exact ih (.inRow r 0) nr0 nc0 [] false false new_cell r hwf
              ⟨rowCanon_nil r, by omega, of_decide_eq_true hr32, rfl, rfl, rfl, rfl⟩ hnc
          · exact absurd hwf (by simp)
      | cellStart rA tA sA => exact absurd hwf (by simp [wfEvents])
      | vStart => exact absurd hwf (by simp [wfEvents])
      | text txt =>
        simp only [wfEvents] at hwf
        rw [innerLoop_text, if_neg (by simp), if_neg (by simp)]
        exact ih .top nr0 nc0 [] false false new_cell tr hwf ⟨rfl, rfl, rfl, rfl⟩ hnc
      | vEnd => exact absurd hwf (by simp [wfEvents])
      | cellEnd => exact absurd hwf (by simp [wfEvents])
      | rowEnd => exact absurd hwf (by simp [wfEvents])
      | other =>
        simp only [wfEvents] at hwf
        rw [innerLoop_other]
        exact ih .top nr0 nc0 [] false false new_cell tr hwf ⟨rfl, rfl, rfl, rfl⟩ hnc
    | inRow r lastCol =>
      obtain ⟨hrow, hlc16, hr32, hic, hiv, hc, htr⟩ := hmode
      subst hic; subst hiv; subst hc; subst tr
      cases e with
      | dimension ref => exact absurd hwf (by cases ref <;> simp [wfEvents])
      | rowStart rAttr => exact absurd hwf (by cases rAttr <;> simp [wfEvents])
      | cellStart rA tA sA =>
        cases rA with
        | none => exact absurd hwf (by simp [wfEvents])
        | some ref =>
          simp only [wfEvents] at hwf
          split at hwf
          · rename_i cc heq
            simp only [Bool.and_eq_true, decide_eq_true_eq] at hwf
            obtain ⟨⟨⟨⟨hlt, hle⟩, hc2⟩, href⟩, hwf⟩ := hwf
            rw [innerLoop_cellStart]
            refine ih (.inCell r lastCol cc.1 (tA.getD "") (resolveStyle styles sA ""))
              nr0 nc0 row true false _ r hwf
              ⟨hrow, hlt, hle, hr32, rfl, rfl, ?_, ?_, ?_, rfl⟩ hnc
            · exact href
            · cases tA <;> rfl
            · rfl
          · exact absurd hwf (by simp)
      | vStart => exact absurd hwf (by simp [wfEvents])
      | text txt =>
        simp only [wfEvents] at hwf
        rw [innerLoop_text, if_neg (by simp), if_neg (by simp)]
        exact ih (.inRow r lastCol) nr0 nc0 row false false new_cell r hwf
          ⟨hrow, hlc16, hr32, rfl, rfl, rfl, rfl⟩ hnc
      | vEnd => exact absurd hwf (by simp [wfEvents])
      | cellEnd => exact absurd hwf (by simp [wfEvents])
      | rowEnd =>
        simp only [wfEvents] at hwf
        rw [innerLoop_rowEnd, hrow.1, Nat.mod_eq_of_lt (show lastCol < 65536 by omega)]
        have hncle : max nc0 lastCol ≤ 16384 := by omega
        obtain ⟨pad, hpad, hplen, hpmap⟩ :=
          gapCells_sound (max nc0 lastCol - lastCol) (lastCol + 1) r (by omega) (by omega)
        rw [hpad]
        dsimp only
        have hgood : goodRow (max nc0 lastCol) ⟨row ++ pad, r⟩ := by
          constructor
          · simp only [List.length_append, hrow.1, hplen]
            omega
          · show (row ++ pad).map Cell.reference =
              (List.range' 1 (max nc0 lastCol)).map (fun col => canonRef col r)
            rw [List.map_append, hrow.2, hpmap]
            have h2 : lastCol + 1 = 1 + lastCol := by omega
            rw [h2, range'_map_append]
            congr 2
            omega
        by_cases htw : r = want_row
        · rw [if_pos htw]
          exact ⟨hgood, fun b hb => absurd hb (by simp), hwf, hncle⟩
        · rw [if_neg htw]
          obtain ⟨er, her, herg, -⟩ := empty_row_sound (max nc0 lastCol) want_row hncle
          rw [her]
          refine ⟨herg, ?_, hwf, hncle⟩
          intro b hb
          injection hb with hb
          rw [← hb]
          exact hgood
      | other =>
        simp only [wfEvents] at hwf
        rw [innerLoop_other]
        exact ih (.inRow r lastCol) nr0 nc0 row false false new_cell r hwf
          ⟨hrow, hlc16, hr32, rfl, rfl, rfl, rfl⟩ hnc
    | inCell r lastCol col ct style =>
      obtain ⟨hrow, hlt, hle, hr32, hic, hiv, href, hct, hstyle, htr⟩ := hmode
      subst hic; subst hiv; subst tr
      cases e with
      | dimension ref => exact absurd hwf (by cases ref <;> simp [wfEvents])
      | rowStart rAttr => exact absurd hwf (by cases rAttr <;> simp [wfEvents])
      | cellStart rA tA sA => exact absurd hwf (by cases rA <;> simp [wfEvents])
      | vStart =>
        simp only [wfEvents] at hwf
        rw [innerLoop_vStart]
        exact ih (.inVal r lastCol col ct style) nr0 nc0 row true true c r hwf
          ⟨hrow, hlt, hle, hr32, rfl, rfl, href, hct, hstyle, rfl⟩ hnc
      | text txt =>
        simp only [wfEvents] at hwf
        rw [innerLoop_text, if_neg (by simp), if_pos rfl]
        exact ih (.inCell r lastCol col ct style) nr0 nc0 row true false
          { c with formula := c.formula ++ txt } r hwf
          ⟨hrow, hlt, hle, hr32, rfl, rfl, href, hct, hstyle, rfl⟩ hnc
      | vEnd => exact absurd hwf (by simp [wfEvents])
      | cellEnd =>
        simp only [wfEvents] at hwf
        by_cases hl0 : lastCol = 0
        · subst hl0
          have hrnil : row = [] := List.length_eq_zero.1 hrow.1
          subst hrnil
          rw [innerLoop_cellEnd, href, coordinates_canonRef col r (by omega) hle hr32,
            List.getLast?_nil]
          dsimp only
          obtain ⟨gaps, hg, hglen, hgmap⟩ :=
            gapCells_sound (col - 1) 1 r (by omega) (by omega)
          rw [hg]
          have hcanon : rowCanon (gaps ++ [c]) col r := by
            have h1 := rowCanon_append [] 0 r gaps (col - 1) c (rowCanon_nil r) hglen
              (by rw [hgmap]) (by rw [href]; congr 1; omega)
            rw [show 0 + (col - 1) + 1 = col by omega] at h1
            simpa using h1
          exact ih (.inRow r col) nr0 nc0 (gaps ++ [c]) false false new_cell r hwf
            ⟨hcanon, hle, hr32, rfl, rfl, rfl, rfl⟩ hnc
        · obtain ⟨prev, hprev, hprevref⟩ := rowCanon_getLast row lastCol r hrow (by omega)
          rw [innerLoop_cellEnd, hprev]
          dsimp only
          rw [hprevref, href,
            coordinates_canonRef lastCol r (by omega) (by omega) hr32,
            coordinates_canonRef col r (by omega) hle hr32]
          dsimp only
          obtain ⟨gaps, hg, hglen, hgmap⟩ :=
            gapCells_sound (col - lastCol - 1) (lastCol + 1) r (by omega) (by omega)
          rw [hg]
          have hcanon : rowCanon (row ++ gaps ++ [c]) col r := by
            have h1 := rowCanon_append row lastCol r gaps (col - lastCol - 1) c hrow hglen
              (by rw [hgmap]) (by rw [href]; congr 1; omega)
            rw [show lastCol + (col - lastCol - 1) + 1 = col by omega] at h1
            exact h1
          exact ih (.inRow r col) nr0 nc0 (row ++ gaps ++ [c]) false false new_cell r hwf
            ⟨hcanon, hle, hr32, rfl, rfl, rfl, rfl⟩ hnc
      | rowEnd => exact absurd hwf (by simp [wfEvents])
      | other =>
        simp only [wfEvents] at hwf
        rw [innerLoop_other]
        exact ih (.inCell r lastCol col ct style) nr0 nc0 row true false c r hwf
          ⟨hrow, hlt, hle, hr32, rfl, rfl, href, hct, hstyle, rfl⟩ hnc
    | inVal r lastCol col ct style =>
      obtain ⟨hrow, hlt, hle, hr32, hic, hiv, href, hct, hstyle, htr⟩ := hmode
      subst hic; subst hiv; subst tr
      cases e with
      | dimension ref => exact absurd hwf (by cases ref <;> simp [wfEvents])
      | rowStart rAttr => exact absurd hwf (by cases rAttr <;> simp [wfEvents])
      | cellStart rA tA sA => exact absurd hwf (by cases rA <;> simp [wfEvents])
      | vStart => exact absurd hwf (by simp [wfEvents])
      | text txt =>
        simp only [wfEvents, Bool.and_eq_true] at hwf
        obtain ⟨hok, hwf⟩ := hwf
        rw [innerLoop_text, if_pos rfl, hct, hstyle]
        obtain ⟨v, hv⟩ := computeValue_some_of_valueOk strings dateConv ct style txt hok
        rw [hv]
        exact ih (.inVal r lastCol col ct style) nr0 nc0 row true true
          { value := v, formula := c.formula, reference := c.reference,
            style := style, cell_type := ct, raw_value := txt } r hwf
          ⟨hrow, hlt, hle, hr32, rfl, rfl, href, rfl, rfl, rfl⟩ hnc
      | vEnd =>
        simp only [wfEvents] at hwf
        rw [innerLoop_vEnd]
        exact ih (.inCell r lastCol col ct style) nr0 nc0 row true false c r hwf
          ⟨hrow, hlt, hle, hr32, rfl, rfl, href, hct, hstyle, rfl⟩ hnc
      | cellEnd => exact absurd hwf (by simp [wfEvents])
      | rowEnd => exact absurd hwf (by simp [wfEvents])
      | other =>
        simp only [wfEvents] at hwf
        rw [innerLoop_other]
        exact ih (.inVal r lastCol col ct style) nr0 nc0 row true true c r hwf
          ⟨hrow, hlt, hle, hr32, rfl, rfl, href, hct, hstyle, rfl⟩ hnc

/-- C6: on a well-formed worksheet stream (canonical cell references with
strictly increasing columns, the invariant `iterInv`), every row the iterator
yields has exactly `num_cols` cells — `num_cols` being the iterator's running
maximum of observed row widths and declared used-area columns, read off the
post-state — and its cell references are exactly
`num2col 1 ++ r, …, num2col num_cols ++ r` for the row's number `r`; the
invariant is preserved, so this holds for every row of the iteration. -/
theorem c6_row_shape (strings styles : List String) (dateConv : String → ExcelValue)
    (st : IterSt) (r : Row) (st' : IterSt)
    (hinv : iterInv strings styles st)
    (h : rowIterNext strings styles dateConv st = .yields r st') :
    r.cells.length = st'.num_cols ∧
    r.cells.map Cell.reference =
      (List.range' 1 st'.num_cols).map (fun col => canonRef col r.num) ∧
    iterInv strings styles st' := by
  obtain ⟨hwf, hnc, hbufg⟩ := hinv
  unfold rowIterNext at h
  split at h
  · rename_i buf hbuf
    have hg : goodRow st.num_cols buf := by
      rw [hbuf] at hbufg
      exact hbufg
    split at h
    · injection h with h1 h2
      subst h1
      rw [← h2]
      exact ⟨hg.1, hg.2, hwf, hnc, trivial⟩
    · split at h
      · exact absurd h (by simp)
      · rename_i er heq
        obtain ⟨er2, he2, hg2, -⟩ := empty_row_sound st.num_cols st.want_row hnc
        rw [he2] at heq
        injection heq with heq
        rw [heq] at hg2
        injection h with h1 h2
        subst h1
        rw [← h2]
        exact ⟨hg2.1, hg2.2, hwf, hnc, hbufg⟩
  · rename_i hbuf
    split at h
    · split at h
      · exact absurd h (by simp)
      · rename_i er heq
        obtain ⟨er2, he2, hg2, -⟩ := empty_row_sound st.num_cols st.want_row hnc
        rw [he2] at heq
        injection heq with heq
        rw [heq] at hg2
        injection h with h1 h2
        subst h1
        rw [← h2]
        exact ⟨hg2.1, hg2.2, hwf, hnc, hbufg⟩
    · split at h
      · exact absurd h (by simp)
      · rename_i ev nr nc hl
        have hres : ev = [] ∧ nc ≤ 16384 := by
          have hmain := innerLoop_inv strings styles dateConv st.want_row st.events
            .top st.num_rows st.num_cols [] false false new_cell 0 hwf
            ⟨rfl, rfl, rfl, rfl⟩ hnc
          rw [hl] at hmain
          exact hmain
        split at h
        · split at h
          · exact absurd h (by simp)
          · rename_i er heq
            obtain ⟨er2, he2, hg2, -⟩ := empty_row_sound nc st.want_row hres.2
            rw [he2] at heq
            injection heq with heq
            rw [heq] at hg2
            injection h with h1 h2
            subst h1
            rw [← h2]
            refine ⟨hg2.1, hg2.2, ?_, hres.2, trivial⟩
            rw [hres.1]
            rfl
        · exact absurd h (by simp)
      · rename_i res stash ev nr nc hl
        have hres : goodRow nc res ∧ (∀ b, stash = some b → goodRow nc b) ∧
            wfEvents strings styles .top ev = true ∧ nc ≤ 16384 := by
          have hmain := innerLoop_inv strings styles dateConv st.want_row st.events
            .top st.num_rows st.num_cols [] false false new_cell 0 hwf
            ⟨rfl, rfl, rfl, rfl⟩ hnc
          rw [hl] at hmain
          exact hmain
        injection h with h1 h2
        subst h1
        rw [← h2]
        refine ⟨hres.1.1, hres.1.2, hres.2.2.1, hres.2.2.2, ?_⟩
        cases stash with
        | none => trivial
        | some b => exact hres.2.1 b rfl

/-- Witness for C6: a one-row stream (a single cell at `B1`) satisfies the
invariant, and the yielded row has two cells referenced `A1`, `B1`. -/
theorem c6_witness :
    ∃ r st', rowIterNext [] [] exDateConv stW = NextOut.yields r st' ∧
      r.cells.length = st'.num_cols ∧
      r.cells.map Cell.reference =
        (List.range' 1 st'.num_cols).map (fun col => canonRef col r.num) := by
  have h : rowIterNext [] [] exDateConv stW = NextOut.yields rW stW' := by decide
  have h2 := c6_row_shape [] [] exDateConv stW rW stW' (by decide) h
  exact ⟨rW, stW', h, h2.1, h2.2.1⟩

end XL
